import Mathlib

/-! Blocked-services generator (`scripts/blocked-services/main.go`).

A shallow embedding of the generator and of the parts of the Go standard library
it calls, followed by the properties proved about it.

Conventions of the embedding:

* a Go `string` is a list of bytes (`GoString`), not necessarily valid UTF-8;
* a `rune` is a natural number; shifts and masks of the library code are written
  with `/`, `%` and `*` (`x >> 6` is `x / 64`, `x & 0x3F` is `x % 64`, and an
  `|` of disjoint bit fields is `+`);
* the Unicode tables behind `strconv.IsPrint` (`isPrint16`, `isNotPrint16`,
  `isPrint32`, `isNotPrint32`) are a parameter `tab : Nat → Bool`, consulted only
  for runes above `0xFF`, exactly where the library consults them;
* a panic of the run is a value of `RunError`.
-/

namespace BlockedServices

/-! ## Strings and bytes -/

/-- A Go `byte`. -/
abbrev Byte := Fin 256

/-- A Go `string`: a sequence of bytes. -/
abbrev GoString := List Byte

/-- The conversion `byte(x)`: truncation to eight bits. -/
def byte (n : Nat) : Byte := Fin.ofNat n

/-- The bytes of an ASCII text constant of the source. -/
def ascii (s : String) : GoString := s.toList.map (fun c => byte c.toNat)

/-! ## `unicode/utf8` -/

/-- `utf8.RuneError`, U+FFFD. -/
def RuneError : Nat := 0xFFFD

/-- Table `first` of `unicode/utf8` joined with `acceptRanges`, for a leading byte
that is not ASCII: the size of the sequence and the accepted range of the second
byte; `none` stands for the entry `xx` (invalid leading byte). -/
def first (s0 : Nat) : Option (Nat × Nat × Nat) :=
  if 0xC2 ≤ s0 ∧ s0 ≤ 0xDF then some (2, 0x80, 0xBF)
  else if s0 = 0xE0 then some (3, 0xA0, 0xBF)
  else if 0xE1 ≤ s0 ∧ s0 ≤ 0xEC then some (3, 0x80, 0xBF)
  else if s0 = 0xED then some (3, 0x80, 0x9F)
  else if 0xEE ≤ s0 ∧ s0 ≤ 0xEF then some (3, 0x80, 0xBF)
  else if s0 = 0xF0 then some (4, 0x90, 0xBF)
  else if 0xF1 ≤ s0 ∧ s0 ≤ 0xF3 then some (4, 0x80, 0xBF)
  else if s0 = 0xF4 then some (4, 0x80, 0x8F)
  else none

/-- `utf8.DecodeRuneInString`: the first rune of `s` and its width in bytes;
`(RuneError, 0)` for the empty string and `(RuneError, 1)` for an invalid
encoding. -/
def decodeRuneInString (s : GoString) : Nat × Nat :=
  match s with
  | [] => (RuneError, 0)
  | s0 :: t =>
    if s0.val < 0x80 then (s0.val, 1)
    else
      match first s0.val with
      | none => (RuneError, 1)
      | some (sz, lo, hi) =>
        if t.length + 1 < sz then (RuneError, 1)
        else
          match t with
          | [] => (RuneError, 1)
          | s1 :: t1 =>
            if s1.val < lo ∨ hi < s1.val then (RuneError, 1)
            else if sz ≤ 2 then (s0.val % 32 * 64 + s1.val % 64, 2)
            else
              match t1 with
              | [] => (RuneError, 1)
              | s2 :: t2 =>
                if s2.val < 0x80 ∨ 0xBF < s2.val then (RuneError, 1)
                else if sz ≤ 3 then
                  (s0.val % 16 * 4096 + s1.val % 64 * 64 + s2.val % 64, 3)
                else
                  match t2 with
                  | [] => (RuneError, 1)
                  | s3 :: _ =>
                    if s3.val < 0x80 ∨ 0xBF < s3.val then (RuneError, 1)
                    else
                      (s0.val % 8 * 262144 + s1.val % 64 * 4096 + s2.val % 64 * 64
                        + s3.val % 64, 4)

/-- `utf8.AppendRune` on an empty buffer: the UTF-8 encoding of `r`; a surrogate
half or a value above `MaxRune` is encoded as U+FFFD. -/
def appendRune (r : Nat) : GoString :=
  if r ≤ 0x7F then [byte r]
  else if r ≤ 0x7FF then [byte (0xC0 + r / 64), byte (0x80 + r % 64)]
  else if 0x10FFFF < r ∨ (0xD800 ≤ r ∧ r ≤ 0xDFFF) then [0xEF, 0xBF, 0xBD]
  else if r ≤ 0xFFFF then
    [byte (0xE0 + r / 4096), byte (0x80 + r / 64 % 64), byte (0x80 + r % 64)]
  else
    [byte (0xF0 + r / 262144), byte (0x80 + r / 4096 % 64), byte (0x80 + r / 64 % 64),
      byte (0x80 + r % 64)]

/-- `utf8.ValidRune`: `r` can be legally encoded as UTF-8. -/
def validRune (r : Nat) : Bool :=
  (r < 0xD800) || (0xDFFF < r && r ≤ 0x10FFFF)

/-! ## `strconv.Quote`, reached through `printf "%q"` -/

/-- The digit `lowerhex[n]` of `strconv`, `lowerhex = "0123456789abcdef"`. -/
def lowerhex (n : Nat) : Byte := (ascii "0123456789abcdef").getD n 0

/-- `strconv.IsPrint`. The fast path for Latin-1 is the library's; for a rune
above `0xFF` the answer is the lookup in the library's tables, `tab r`. -/
def isPrint (tab : Nat → Bool) (r : Nat) : Bool :=
  if r ≤ 0xFF then
    if 0x20 ≤ r ∧ r ≤ 0x7E then true
    else if 0xA1 ≤ r ∧ r ≤ 0xFF then r != 0xAD
    else false
  else tab r

/-- `strconv.appendEscapedRune` with `quote = '"'`, `ASCIIonly = false` and
`graphicOnly = false`, the arguments `strconv.Quote` passes. -/
def appendEscapedRune (tab : Nat → Bool) (r : Nat) : GoString :=
  if r = 0x22 ∨ r = 0x5C then [0x5C, byte r]
  else if isPrint tab r then appendRune r
  else if r = 0x07 then [0x5C, 0x61]
  else if r = 0x08 then [0x5C, 0x62]
  else if r = 0x0C then [0x5C, 0x66]
  else if r = 0x0A then [0x5C, 0x6E]
  else if r = 0x0D then [0x5C, 0x72]
  else if r = 0x09 then [0x5C, 0x74]
  else if r = 0x0B then [0x5C, 0x76]
  else if r < 0x20 ∨ r = 0x7F then
    [0x5C, 0x78, lowerhex (r % 256 / 16), lowerhex (r % 256 % 16)]
  else
    let r1 := if validRune r then r else 0xFFFD
    if !validRune r || r1 < 0x10000 then
      [0x5C, 0x75, lowerhex (r1 / 4096 % 16), lowerhex (r1 / 256 % 16),
        lowerhex (r1 / 16 % 16), lowerhex (r1 % 16)]
    else
      [0x5C, 0x55, lowerhex (r1 / 268435456 % 16), lowerhex (r1 / 16777216 % 16),
        lowerhex (r1 / 1048576 % 16), lowerhex (r1 / 65536 % 16),
        lowerhex (r1 / 4096 % 16), lowerhex (r1 / 256 % 16),
        lowerhex (r1 / 16 % 16), lowerhex (r1 % 16)]

/-- One iteration of the loop of `strconv.appendQuotedWith` on the non-empty
string `s0 :: t`: the bytes appended to the buffer and the width consumed. -/
def quoteStep (tab : Nat → Bool) (s0 : Byte) (t : GoString) : GoString × Nat :=
  let rw := if 0x80 ≤ s0.val then decodeRuneInString (s0 :: t) else (s0.val, 1)
  if rw.2 = 1 ∧ rw.1 = RuneError then
    ([0x5C, 0x78, lowerhex (s0.val / 16), lowerhex (s0.val % 16)], 1)
  else (appendEscapedRune tab rw.1, rw.2)

/-- The loop of `strconv.appendQuotedWith`, `for ; len(s) > 0; s = s[width:]`.
The first argument bounds the number of iterations; `s.length` is enough since
every iteration consumes at least one byte. -/
def quoteLoop (tab : Nat → Bool) : Nat → GoString → GoString
  | 0, _ => []
  | _, [] => []
  | fuel + 1, s0 :: t =>
    (quoteStep tab s0 t).1 ++ quoteLoop tab fuel ((s0 :: t).drop (quoteStep tab s0 t).2)

/-- `strconv.Quote`: the loop between two double quotes. -/
def quote (tab : Nat → Bool) (s : GoString) : GoString :=
  0x22 :: (quoteLoop tab s.length s ++ [0x22])

/-- The template call `printf "%q" v` on a string `v`: `fmt.Sprintf` formats the
verb `%q` without flags with `strconv.Quote`. -/
def printfQ (tab : Nat → Bool) (v : GoString) : GoString := quote tab v

/-! ## Interpreted string literals of the Go language -/

/-- The value of a hexadecimal digit (`0-9`, `a-f`, `A-F`). -/
def unhex (b : Byte) : Option Nat :=
  if 0x30 ≤ b.val ∧ b.val ≤ 0x39 then some (b.val - 0x30)
  else if 0x61 ≤ b.val ∧ b.val ≤ 0x66 then some (b.val - 0x61 + 10)
  else if 0x41 ≤ b.val ∧ b.val ≤ 0x46 then some (b.val - 0x41 + 10)
  else none

/-- The number written by a sequence of hexadecimal digits. -/
def hexDigits : List Byte → Nat → Option Nat
  | [], acc => some acc
  | d :: ds, acc =>
    match unhex d with
    | none => none
    | some v => hexDigits ds (acc * 16 + v)

/-- The number written by a sequence of octal digits. -/
def octDigits : List Byte → Nat → Option Nat
  | [], acc => some acc
  | d :: ds, acc =>
    if 0x30 ≤ d.val ∧ d.val ≤ 0x37 then octDigits ds (acc * 8 + (d.val - 0x30)) else none

/-- One element of the body of an interpreted string literal. -/
structure Item where
  /-- The code point, when the element is a code point written unescaped. -/
  raw : Option Nat
  /-- The bytes the element contributes to the value of the literal. -/
  value : GoString

/-- An escape sequence, read after its backslash (Go specification, "String
literals" and "Rune literals"): `\a \b \f \n \r \t \v \\ \"`, `\ooo`, `\xhh`,
`\uhhhh` and `\Uhhhhhhhh`. The two last must denote a valid code point and are
encoded as UTF-8; `\'` is not legal inside a string literal. -/
def scanEscape : GoString → Option (Item × GoString)
  | [] => none
  | c :: t =>
    if c = 0x61 then some (⟨none, [0x07]⟩, t)
    else if c = 0x62 then some (⟨none, [0x08]⟩, t)
    else if c = 0x66 then some (⟨none, [0x0C]⟩, t)
    else if c = 0x6E then some (⟨none, [0x0A]⟩, t)
    else if c = 0x72 then some (⟨none, [0x0D]⟩, t)
    else if c = 0x74 then some (⟨none, [0x09]⟩, t)
    else if c = 0x76 then some (⟨none, [0x0B]⟩, t)
    else if c = 0x5C then some (⟨none, [0x5C]⟩, t)
    else if c = 0x22 then some (⟨none, [0x22]⟩, t)
    else if c = 0x78 then
      if t.length < 2 then none
      else (hexDigits (t.take 2) 0).map (fun v => (⟨none, [byte v]⟩, t.drop 2))
    else if c = 0x75 then
      if t.length < 4 then none
      else (hexDigits (t.take 4) 0).bind (fun v =>
        if validRune v then some (⟨none, appendRune v⟩, t.drop 4) else none)
    else if c = 0x55 then
      if t.length < 8 then none
      else (hexDigits (t.take 8) 0).bind (fun v =>
        if validRune v then some (⟨none, appendRune v⟩, t.drop 8) else none)
    else if 0x30 ≤ c.val ∧ c.val ≤ 0x37 then
      if t.length < 2 then none
      else (octDigits (c :: t.take 2) 0).bind (fun v =>
        if v ≤ 255 then some (⟨none, [byte v]⟩, t.drop 2) else none)
    else none

/-- One element at the head of the body of an interpreted string literal, and
the input left after it. A backslash starts an escape sequence; anything else
is a code point written as is, which must be valid UTF-8 and neither a newline
nor NUL. The caller handles the closing double quote. -/
def scanItem : GoString → Option (Item × GoString)
  | [] => none
  | c :: t =>
    if c = 0x5C then scanEscape t
    else if c = 0x0A then none
    else
      let rw := decodeRuneInString (c :: t)
      if rw.1 = RuneError ∧ rw.2 = 1 then none
      else if rw.1 = 0 then none
      else some (⟨some rw.1, (c :: t).take rw.2⟩, (c :: t).drop rw.2)

/-- The value of the body of an interpreted string literal up to and including
its closing double quote, which must end the input. The first argument bounds
the number of elements read. -/
def unquoteBody : Nat → GoString → Option GoString
  | 0, _ => none
  | _, [] => none
  | fuel + 1, c :: t =>
    if c = 0x22 then (if t = [] then some [] else none)
    else
      match scanItem (c :: t) with
      | none => none
      | some (it, rest) => (unquoteBody fuel rest).map (fun v => it.value ++ v)

/-- The value of an interpreted string literal: `none` when the input is not
exactly one interpreted string literal. -/
def unquote (lit : GoString) : Option GoString :=
  match lit with
  | [] => none
  | c :: t => if c = 0x22 then unquoteBody t.length t else none

/-- A control character: the Unicode class Cc, U+0000–U+001F and U+007F–U+009F. -/
def isControl (r : Nat) : Bool := r < 0x20 || (0x7F ≤ r && r ≤ 0x9F)

/-- The body of a literal is safely escaped: read from left to right, every
backslash starts a complete escape sequence, after which reading resumes, and
every other element is a code point that is not a double quote and not a control
character. The first argument bounds the number of elements read. -/
def safeBody : Nat → GoString → Bool
  | _, [] => true
  | 0, _ :: _ => false
  | fuel + 1, c :: t =>
    if c = 0x22 then false
    else
      match scanItem (c :: t) with
      | none => false
      | some (it, rest) =>
        (match it.raw with
          | some r => !isControl r
          | none => true) && safeBody fuel rest

/-- Every code point that the body of a literal holds unescaped satisfies
`strconv.IsPrint`. The first argument bounds the number of elements read. -/
def rawPrintable (tab : Nat → Bool) : Nat → GoString → Bool
  | _, [] => true
  | 0, _ :: _ => false
  | fuel + 1, c :: t =>
    match scanItem (c :: t) with
    | none => false
    | some (it, rest) =>
      (match it.raw with
        | some r => isPrint tab r
        | none => true) && rawPrintable tab fuel rest

/-! ## The decoded model (`hlServices`, `hlServicesService`) -/

/-- `hlServicesService`, the JSON structure for a service in the Hostlists
Registry. -/
structure hlServicesService where
  /-- Field `ID`, JSON key `id`. -/
  ID : GoString
  /-- Field `Name`, JSON key `name`. -/
  Name : GoString
  /-- Field `IconSVG`, JSON key `icon_svg`. -/
  IconSVG : GoString
  /-- Field `Rules`, JSON key `rules`. -/
  Rules : List GoString
  deriving DecidableEq

/-- `hlServices`, the JSON structure for the blocked service index. The slice
holds pointers, `[]*hlServicesService`; `none` is a nil pointer. -/
structure hlServices where
  /-- Field `BlockedServices`, JSON key `blocked_services`. -/
  BlockedServices : List (Option hlServicesService)

/-! ## Normalization (`main`, lines 51–57) -/

/-- `strings.Compare`: the three-way byte-wise lexicographic comparison of two
strings, `-1`, `0` or `+1`. -/
def stringsCompare : GoString → GoString → Int
  | [], [] => 0
  | [], _ :: _ => -1
  | _ :: _, [] => 1
  | a :: as, b :: bs =>
    if a.val < b.val then -1
    else if b.val < a.val then 1
    else stringsCompare as bs

/-- Insertion of `x`, which precedes the elements of the list in the input, at
its place in the sorted list: behind the elements that compare strictly below
it, in front of all others. -/
def insertStable {α : Type} (cmp : α → α → Int) (x : α) : List α → List α
  | [] => [x]
  | y :: ys => if cmp y x < 0 then y :: insertStable cmp x ys else x :: y :: ys

/-- `slices.SortStableFunc`: sorts by `cmp` and keeps the original order of
elements that compare equal. The function is modelled by its contract, as a
stable insertion sort; the contract determines the result
(`sortStableFunc_unique`), so every stable sort by the same comparison returns
this slice. -/
def sortStableFunc {α : Type} (cmp : α → α → Int) : List α → List α
  | [] => []
  | x :: xs => insertStable cmp x (sortStableFunc cmp xs)

/-- `slices.Sort` on a slice of strings: ascending by `<` on strings, which is
the byte-wise order of `strings.Compare`. Strings that compare equal are the
same string, so every sorting algorithm returns this slice
(`slicesSort_unique`). -/
def slicesSort (x : List GoString) : List GoString := sortStableFunc stringsCompare x

/-- The body of the loop of lines 55–57 for one service: its rules are sorted in
place, nothing else is touched. -/
def sortRules (s : hlServicesService) : hlServicesService :=
  { s with Rules := slicesSort s.Rules }

/-- Lines 52–57 on a slice without nil pointer: the services are stably sorted
by `strings.Compare` on their `ID`, then the rules of every service are sorted.
With a nil pointer in the slice these lines panic and there is no normalized
model, see `derefAll` and `run`. -/
def normalize (svcs : List hlServicesService) : List hlServicesService :=
  (sortStableFunc (fun a b => stringsCompare a.ID b.ID) svcs).map sortRules

/-- Byte-wise order on strings, strict: the lexicographic order of the bytes. -/
def byteLT (a b : GoString) : Prop := List.Lex (fun x y : Byte => x < y) a b

/-- Byte-wise order on strings: `a` is `b` or lexicographically before it. -/
def byteLE (a b : GoString) : Prop := a = b ∨ byteLT a b

/-! ## The template (`tmplStr`, lines 79–101) and its execution

The template is parsed with the delimiters `<%` and `%>`. Its text nodes are the
texts between the actions; the marker `<%-` in front of the outer `range` trims
the white space in front of it, so the text between the assignment of `$l` and
the `range` (a newline and a tab) is empty. -/

/-- The first line of `tmplStr`: the marker of a generated file. -/
def markerLine : GoString :=
  ascii "// Code generated by go run ./scripts/blocked-services/main.go; DO NOT EDIT.\n"

/-- Lines 80–82 of `tmplStr`: the package clause between two empty lines. -/
def packageClause : GoString := ascii "\npackage filtering\n\n"

/-- Lines 83–90 of `tmplStr`: the declaration of the record type. -/
def typeDecl : GoString :=
  ascii "// blockedService represents a single blocked service.\n" ++
  ascii "type blockedService struct \x7b\n" ++
  ascii "\tID      string   `json:\"id\"`\n" ++
  ascii "\tName    string   `json:\"name\"`\n" ++
  ascii "\tIconSVG []byte   `json:\"icon_svg\"`\n" ++
  ascii "\tRules   []string `json:\"rules\"`\n" ++
  ascii "\x7d\n\n"

/-- Lines 91–92 of `tmplStr` up to the collection initializer. -/
def varDecl : GoString :=
  ascii "// blockedServices contains raw blocked service data.\n" ++
  ascii "var blockedServices = "

/-- The opening of the collection initializer, which ends the first text node of
the template (line 92). -/
def initOpen : GoString := ascii "[]blockedService\x7b"

/-- The first text node of the template: everything in front of the first
action. -/
def tmplHeader : GoString := markerLine ++ packageClause ++ typeDecl ++ varDecl ++ initOpen

/-- The last text node of the template (line 100): the closing brace of the
initializer and the final newline. -/
def tmplFooter : GoString := ascii "\x7d\n"

/-- The separator written by `<% if isnotlast $i $l %>, <% end %>`. -/
def separator : GoString := ascii ", "

/-- The function `isnotlast` of the template's function map (lines 62–64):
`idx != sliceLen-1` on Go `int`s. -/
def isnotlast (idx sliceLen : Int) : Bool := idx != sliceLen - 1

/-- The inner `range $s.Rules` (lines 97–98): for every rule a newline, two tabs,
the quoted rule and a comma. -/
def execRules (tab : Nat → Bool) : List GoString → GoString
  | [] => []
  | r :: rs => ascii "\n\t\t" ++ printfQ tab r ++ ascii "," ++ execRules tab rs

/-- The record literal that the body of the outer `range` writes for one service
(lines 93–100, from the opening to the closing brace). -/
def recordLiteral (tab : Nat → Bool) (s : hlServicesService) : GoString :=
  ascii "\x7b\n\tID:      " ++ printfQ tab s.ID ++
  ascii ",\n\tName:    " ++ printfQ tab s.Name ++
  ascii ",\n\tIconSVG: []byte(" ++ printfQ tab s.IconSVG ++
  ascii "),\n\tRules: []string\x7b" ++ execRules tab s.Rules ++
  ascii "\n\t\x7d,\n\x7d"

/-- The outer `range $i, $s := .BlockedServices` (lines 93–100), from index `i`
on: the record literal of the service, then the separator when `isnotlast $i $l`
holds. -/
def execRange (tab : Nat → Bool) (l : Int) : Int → List hlServicesService → GoString
  | _, [] => []
  | i, s :: rest =>
    recordLiteral tab s ++ (if isnotlast i l then separator else []) ++
      execRange tab l (i + 1) rest

/-- `tmpl.Execute(f, hlSvcs)` (line 75): the bytes written to the file for the
services of the model, with `$l := len .BlockedServices`. The template is
executed only after lines 52–57 have read a field of every element of the
slice, so no element is a nil pointer here. -/
def execute (tab : Nat → Bool) (svcs : List hlServicesService) : GoString :=
  tmplHeader ++ execRange tab (svcs.length : Int) 0 svcs ++ tmplFooter

/-! ## `encoding/json`: decoding into `hlServices` (lines 47–49)

What `json.NewDecoder(resp.Body).Decode(hlSvcs)` does is modelled on the first
JSON value of the body; what follows that value in the body is not read.

* A member of an object is decoded into the field whose JSON name equals the
  member's key exactly or, failing that, under simple Unicode case folding
  (`bytes.EqualFold`); other members are skipped; a field that no member matches
  keeps its value, which is the zero value in a struct that was just allocated.
* The members are decoded in the order of the document, each into the value the
  field holds at that moment. A JSON string replaces a `string`; `null` leaves a
  `string` as it is and sets a pointer or a slice to nil.
* A JSON array is decoded into a slice element by element, each element into the
  value stored at its index: within the old length that is the old element,
  behind it what the backing array still holds from an earlier, longer array, and
  the zero value in a slot never written. The slice is then cut to the number of
  elements read; the empty array stores a new empty slice. Growing the slice
  copies the whole backing array, since it happens only when length and capacity
  are both the index being written. -/

/-- A JSON value. -/
inductive JValue where
  | null
  | bool (b : Bool)
  | number (text : GoString)
  | str (s : GoString)
  | arr (items : List JValue)
  | obj (members : List (GoString × JValue))

/-- The errors of `Decode`. -/
inductive DecodeError where
  /-- The body does not start with a well-formed JSON value (`*json.SyntaxError`
  or an error of the reader). -/
  | malformed
  /-- A JSON value cannot be stored in the Go value it is decoded into
  (`*json.UnmarshalTypeError`). -/
  | typeMismatch
  deriving DecidableEq

/-- The rune `r` equals the character `c` of a field name under simple Unicode
case folding, for `c` a lower-case ASCII letter, a digit or an underscore: `r` is
`c`, or its upper-case letter, or one of the two runes outside ASCII that fold
to an ASCII letter, U+212A (Kelvin sign) for `k` and U+017F (long s) for `s`. -/
def foldsTo (r c : Nat) : Bool :=
  r = c || (0x61 ≤ c && c ≤ 0x7A && r + 0x20 = c) || (c = 0x6B && r = 0x212A) ||
    (c = 0x73 && r = 0x17F)

/-- `bytes.EqualFold(key, name)` for a field name `name` of lower-case ASCII
letters and underscores: both are read rune by rune (an invalid byte of the key
is the rune U+FFFD of width one) and must agree under simple case folding. -/
def equalFold : GoString → GoString → Bool
  | [], [] => true
  | [], _ :: _ => false
  | _ :: _, [] => false
  | k :: ks, c :: cs =>
    foldsTo (decodeRuneInString (k :: ks)).1 c.val &&
      equalFold ((k :: ks).drop (decodeRuneInString (k :: ks)).2) cs

/-- The member key `key` selects the field whose JSON name is `name`. No two
fields of the two structs have names that are equal under folding, so the exact
match the library tries first selects the same field. -/
def keyIs (name : String) (key : GoString) : Bool := equalFold key (ascii name)

/-- A slice as the decoder meets it: the elements within its length, and the
values that its backing array holds behind its length. -/
structure Slice (T : Type) where
  /-- The elements of the slice. -/
  elems : List T
  /-- The values stored behind the length of the slice, within its capacity. -/
  spare : List T

/-- A `*hlServicesService` that is not nil, during decoding: the struct it points
to, and what the backing array of `Rules` holds behind its length. -/
structure ServiceSlot where
  /-- The struct. -/
  svc : hlServicesService
  /-- The values behind the length of `Rules`. -/
  spareRules : List GoString

/-- Decoding into a `string`: a JSON string is stored, `null` leaves the value
as it is, anything else is a type error. -/
def decodeString (old : GoString) : JValue → Except DecodeError GoString
  | .null => .ok old
  | .str s => .ok s
  | _ => .error .typeMismatch

/-- The loop of the decoder over the elements of a JSON array: the element of
index `i` is decoded into the value stored at index `i` of the backing array
`store`, the zero value where the backing array ends. -/
def decodeElems {T : Type} (dec : T → JValue → Except DecodeError T) (zero : T) :
    List T → List JValue → Except DecodeError (List T)
  | _, [] => .ok []
  | store, j :: js =>
    match dec (store.headD zero) j with
    | .error e => .error e
    | .ok v =>
      match decodeElems dec zero store.tail js with
      | .error e => .error e
      | .ok vs => .ok (v :: vs)

/-- Decoding into a slice: `null` stores nil, the empty array a new empty
slice, another array its elements decoded by `decodeElems`, with what the
backing array holds behind them kept; anything else is a type error. -/
def decodeSlice {T : Type} (dec : T → JValue → Except DecodeError T) (zero : T)
    (old : Slice T) : JValue → Except DecodeError (Slice T)
  | .null => .ok ⟨[], []⟩
  | .arr [] => .ok ⟨[], []⟩
  | .arr (j :: js) =>
    match decodeElems dec zero (old.elems ++ old.spare) (j :: js) with
    | .error e => .error e
    | .ok vs => .ok ⟨vs, (old.elems ++ old.spare).drop vs.length⟩
  | _ => .error .typeMismatch

/-- Decoding one member of a service object into the struct. -/
def decodeServiceMember (s : ServiceSlot) (m : GoString × JValue) :
    Except DecodeError ServiceSlot :=
  if keyIs "id" m.1 then
    (decodeString s.svc.ID m.2).map (fun v => { s with svc := { s.svc with ID := v } })
  else if keyIs "name" m.1 then
    (decodeString s.svc.Name m.2).map (fun v => { s with svc := { s.svc with Name := v } })
  else if keyIs "icon_svg" m.1 then
    (decodeString s.svc.IconSVG m.2).map
      (fun v => { s with svc := { s.svc with IconSVG := v } })
  else if keyIs "rules" m.1 then
    (decodeSlice decodeString [] ⟨s.svc.Rules, s.spareRules⟩ m.2).map
      (fun r => ⟨{ s.svc with Rules := r.elems }, r.spare⟩)
  else .ok s

/-- Decoding into a `*hlServicesService`: `null` stores nil; an object is
decoded member by member into the struct the pointer points to, a new zero
struct when the pointer is nil; anything else is a type error. -/
def decodeServicePtr (old : Option ServiceSlot) : JValue → Except DecodeError (Option ServiceSlot)
  | .null => .ok none
  | .obj members =>
    (members.foldlM decodeServiceMember (old.getD ⟨⟨[], [], [], []⟩, []⟩)).map some
  | _ => .error .typeMismatch

/-- Decoding one member of the top-level object into `hlServices`, whose one
field is the slice `BlockedServices`. -/
def decodeTopMember (st : Slice (Option ServiceSlot)) (kv : GoString × JValue) :
    Except DecodeError (Slice (Option ServiceSlot)) :=
  if keyIs "blocked_services" kv.1 then decodeSlice decodeServicePtr none st kv.2
  else .ok st

/-- The model a decoding leaves in `hlSvcs`. -/
def toModel (st : Slice (Option ServiceSlot)) : hlServices :=
  ⟨st.elems.map (fun p => p.map (fun s => s.svc))⟩

/-- `json.NewDecoder(resp.Body).Decode(hlSvcs)` with `hlSvcs := &hlServices{}`.
The body is given as the JSON value it starts with, `none` when it does not
start with one. -/
def decode : Option JValue → Except DecodeError hlServices
  | none => .error .malformed
  | some .null => .ok ⟨[]⟩
  | some (.obj members) => (members.foldlM decodeTopMember ⟨[], []⟩).map toModel
  | some _ => .error .typeMismatch

/-! ## The run (`main`) -/

/-- `http.StatusOK`. -/
def StatusOK : Int := 200

/-- What the run reads of the HTTP response. -/
structure Response where
  /-- Field `StatusCode` of `http.Response`. -/
  StatusCode : Int
  /-- The JSON value the body starts with, `none` when it starts with none; the
  decoder does not read what follows that value. -/
  Body : Option JValue

/-- The world one run meets. -/
structure Env where
  /-- `url.Parse(urlStr)` succeeds (lines 33–34). -/
  urlValid : Bool
  /-- The result of `c.Get(urlStr)` (line 40), `none` for a transport error. -/
  response : Option Response
  /-- `os.OpenFile` on the destination succeeds (lines 68–72). -/
  canOpen : Bool
  /-- The content of `./internal/filtering/servicelist.go` before the run,
  `none` when the file does not exist. -/
  file : Option GoString

/-- The panics that end a run. -/
inductive RunError where
  /-- `errors.Check` on the error of `url.Parse` (line 34). -/
  | config
  /-- `errors.Must` on the error of `c.Get` (line 40). -/
  | network
  /-- The panic of line 44, `fmt.Errorf("expected code %d, got %d", ...)`, with
  its two arguments. -/
  | response (expected got : Int)
  /-- `errors.Check` on the error of `Decode` (line 49). -/
  | decode (e : DecodeError)
  /-- A nil pointer dereference in lines 52–57. -/
  | nilPointer
  /-- `errors.Must` on the error of `os.OpenFile` (line 68). -/
  | emit
  deriving DecidableEq

/-- What a run leaves behind. -/
structure Outcome where
  /-- The panic that ended the run, `none` when it ran to its end. -/
  error : Option RunError
  /-- The destination file was opened, which creates or truncates it. -/
  opened : Bool
  /-- The content of the destination file after the run. -/
  file : Option GoString

/-- The status check of lines 43–45. -/
def checkStatus (resp : Response) : Except RunError Unit :=
  if resp.StatusCode ≠ StatusOK then .error (.response StatusOK resp.StatusCode)
  else .ok ()

/-- The pointers of the decoded slice, dereferenced: `none` when one of them is
nil. The comparison function of line 53 and the loop of lines 55–57 read a field
of every element, so a nil element panics before the file is opened. -/
def derefAll : List (Option hlServicesService) → Option (List hlServicesService)
  | [] => some []
  | none :: _ => none
  | some s :: rest => (derefAll rest).map (fun l => s :: l)

/-- The stages of `main` in the order of the source. The template is a constant
that parses; the writes to the opened file are taken to succeed. -/
def run (tab : Nat → Bool) (env : Env) : Outcome :=
  if env.urlValid = false then ⟨some .config, false, env.file⟩
  else
    match env.response with
    | none => ⟨some .network, false, env.file⟩
    | some resp =>
      match checkStatus resp with
      | .error e => ⟨some e, false, env.file⟩
      | .ok () =>
        match decode resp.Body with
        | .error e => ⟨some (.decode e), false, env.file⟩
        | .ok hlSvcs =>
          match derefAll hlSvcs.BlockedServices with
          | none => ⟨some .nilPointer, false, env.file⟩
          | some svcs =>
            if env.canOpen = false then ⟨some .emit, false, env.file⟩
            else ⟨none, true, some (execute tab (normalize svcs))⟩

/-! ## Relations used to state the claims -/

/-- Two service lists hold the same services: the first is, element for
element, a rearrangement of the second in which corresponding services have the
same id, display name and icon and the same rules in some order. -/
def SameServices (l₁ l₂ : List hlServicesService) : Prop :=
  ∃ l, l.Perm l₂ ∧
    List.Forall₂ (fun a b => a.ID = b.ID ∧ a.Name = b.Name ∧ a.IconSVG = b.IconSVG ∧
      a.Rules.Perm b.Rules) l₁ l

/-- The document of the scenario of the specification:
`{"blocked_services":[{"id":"b","name":"B","icon_svg":"<svg/>","rules":["z","a"]},
{"id":"a","name":"A","icon_svg":"","rules":[]}]}`. -/
def scenarioDoc : JValue :=
  .obj [(ascii "blocked_services", .arr [
    .obj [(ascii "id", .str (ascii "b")), (ascii "name", .str (ascii "B")),
      (ascii "icon_svg", .str (ascii "<svg/>")),
      (ascii "rules", .arr [.str (ascii "z"), .str (ascii "a")])],
    .obj [(ascii "id", .str (ascii "a")), (ascii "name", .str (ascii "A")),
      (ascii "icon_svg", .str []), (ascii "rules", .arr [])]])]

/-! ## Auxiliary predicates of the proofs -/

/-- The byte `s1` is accepted as second byte after the leading byte `s0` of a
sequence of `sz` bytes. -/
def accepts (sz s0 s1 : Nat) : Prop :=
  ∃ lo hi, first s0 = some (sz, lo, hi) ∧ lo ≤ s1 ∧ s1 ≤ hi

/-- The property of one scanned element that the proofs carry along: the bytes
`chunk` in front of `rest` are read as one element that leaves `rest` and denotes
`v`; they do not start with a double quote; and when the element is a code point
written raw, the code point is printable. -/
def ScansTo (tab : Nat → Bool) (chunk rest v : GoString) : Prop :=
  ∃ it, scanItem (chunk ++ rest) = some (it, rest) ∧ it.value = v ∧
    (∃ c ct, chunk = c :: ct ∧ c ≠ 0x22) ∧ ∀ r, it.raw = some r → isPrint tab r = true

/-- A byte that is not an ASCII control character. -/
def cleanByte (b : Byte) : Prop := 0x20 ≤ b.val ∧ b.val ≠ 0x7F

set_option maxRecDepth 100000

/-! ## Lemmas on UTF-8 decoding and encoding -/

theorem byte_val (n : Nat) : (byte n).val = n % 256 := rfl

theorem byte_eq_of_val {n : Nat} {b : Byte} (h : n = b.val) : byte n = b := by
  apply Fin.ext
  rw [byte_val, h]
  exact Nat.mod_eq_of_lt b.isLt

theorem first_some {s0 sz lo hi : Nat} (h : first s0 = some (sz, lo, hi)) :
    (0xC2 ≤ s0 ∧ s0 ≤ 0xDF ∧ sz = 2 ∧ lo = 0x80 ∧ hi = 0xBF) ∨
    (s0 = 0xE0 ∧ sz = 3 ∧ lo = 0xA0 ∧ hi = 0xBF) ∨
    (0xE1 ≤ s0 ∧ s0 ≤ 0xEC ∧ sz = 3 ∧ lo = 0x80 ∧ hi = 0xBF) ∨
    (s0 = 0xED ∧ sz = 3 ∧ lo = 0x80 ∧ hi = 0x9F) ∨
    (0xEE ≤ s0 ∧ s0 ≤ 0xEF ∧ sz = 3 ∧ lo = 0x80 ∧ hi = 0xBF) ∨
    (s0 = 0xF0 ∧ sz = 4 ∧ lo = 0x90 ∧ hi = 0xBF) ∨
    (0xF1 ≤ s0 ∧ s0 ≤ 0xF3 ∧ sz = 4 ∧ lo = 0x80 ∧ hi = 0xBF) ∨
    (s0 = 0xF4 ∧ sz = 4 ∧ lo = 0x80 ∧ hi = 0x8F) := by
  unfold first at h
  split_ifs at h with h1 h2 h3 h4 h5 h6 h7 h8 <;>
    simp only [Option.some.injEq, Prod.mk.injEq, reduceCtorEq] at h <;>
    obtain ⟨rfl, rfl, rfl⟩ := h
  · exact Or.inl ⟨h1.1, h1.2, rfl, rfl, rfl⟩
  · exact Or.inr (Or.inl ⟨h2, rfl, rfl, rfl⟩)
  · exact Or.inr (Or.inr (Or.inl ⟨h3.1, h3.2, rfl, rfl, rfl⟩))
  · exact Or.inr (Or.inr (Or.inr (Or.inl ⟨h4, rfl, rfl, rfl⟩)))
  · exact Or.inr (Or.inr (Or.inr (Or.inr (Or.inl ⟨h5.1, h5.2, rfl, rfl, rfl⟩))))
  · exact Or.inr (Or.inr (Or.inr (Or.inr (Or.inr (Or.inl ⟨h6, rfl, rfl, rfl⟩)))))
  · exact Or.inr (Or.inr (Or.inr (Or.inr (Or.inr (Or.inr (Or.inl ⟨h7.1, h7.2, rfl, rfl, rfl⟩))))))
  · exact Or.inr (Or.inr (Or.inr (Or.inr (Or.inr (Or.inr (Or.inr ⟨h8, rfl, rfl, rfl⟩))))))

theorem first_size {s0 sz lo hi : Nat} (h : first s0 = some (sz, lo, hi)) :
    2 ≤ sz ∧ sz ≤ 4 ∧ 0xC2 ≤ s0 := by
  rcases first_some h with hs | hs | hs | hs | hs | hs | hs | hs <;> omega

theorem decode_cases (s0 : Byte) (t : GoString) :
    (s0.val < 0x80 ∧ decodeRuneInString (s0 :: t) = (s0.val, 1)) ∨
    (∃ s1 t1, t = s1 :: t1 ∧ accepts 2 s0.val s1.val ∧
      decodeRuneInString (s0 :: t) = (s0.val % 32 * 64 + s1.val % 64, 2)) ∨
    (∃ s1 s2 t2, t = s1 :: s2 :: t2 ∧ accepts 3 s0.val s1.val ∧
      0x80 ≤ s2.val ∧ s2.val ≤ 0xBF ∧
      decodeRuneInString (s0 :: t) =
        (s0.val % 16 * 4096 + s1.val % 64 * 64 + s2.val % 64, 3)) ∨
    (∃ s1 s2 s3 t3, t = s1 :: s2 :: s3 :: t3 ∧ accepts 4 s0.val s1.val ∧
      0x80 ≤ s2.val ∧ s2.val ≤ 0xBF ∧ 0x80 ≤ s3.val ∧ s3.val ≤ 0xBF ∧
      decodeRuneInString (s0 :: t) =
        (s0.val % 8 * 262144 + s1.val % 64 * 4096 + s2.val % 64 * 64 + s3.val % 64, 4)) ∨
    (0x80 ≤ s0.val ∧ decodeRuneInString (s0 :: t) = (RuneError, 1)) := by
  by_cases h0 : s0.val < 0x80
  · left; exact ⟨h0, by simp [decodeRuneInString, h0]⟩
  · right
    cases hf : first s0.val with
    | none => right; right; right; exact ⟨by omega, by simp [decodeRuneInString, h0, hf]⟩
    | some p =>
      obtain ⟨sz, lo, hi⟩ := p
      have hs := first_size hf
      cases t with
      | nil => 
        right; right; right; refine ⟨by omega, ?_⟩
        simp only [decodeRuneInString, h0, hf, if_false]
        split_ifs <;> rfl
      | cons s1 t1 =>
        by_cases h1 : s1.val < lo ∨ hi < s1.val
        · right; right; right; refine ⟨by omega, ?_⟩
          simp only [decodeRuneInString, h0, hf, if_false, h1, if_true]
          split_ifs <;> rfl
        · by_cases hsz2 : sz ≤ 2
          · left
            refine ⟨s1, t1, rfl, ?_, ?_⟩
            · have : sz = 2 := by omega
              subst this
              exact ⟨lo, hi, hf, by omega, by omega⟩
            · have : ¬ (List.length (s1 :: t1) + 1 < sz) := by simp; omega
              simp only [decodeRuneInString, h0, hf, if_false, h1, hsz2, if_true, this]
          · cases t1 with
            | nil =>
              right; right; right; refine ⟨by omega, ?_⟩
              simp only [decodeRuneInString, h0, hf, if_false, h1, hsz2]
              split_ifs <;> rfl
            | cons s2 t2 =>
              by_cases h2 : s2.val < 0x80 ∨ 0xBF < s2.val
              · right; right; right; refine ⟨by omega, ?_⟩
                simp only [decodeRuneInString, h0, hf, if_false, h1, hsz2, h2, if_true]
                split_ifs <;> rfl
              · by_cases hsz3 : sz ≤ 3
                · right; left
                  refine ⟨s1, s2, t2, rfl, ?_, by omega, by omega, ?_⟩
                  · have : sz = 3 := by omega
                    subst this
                    exact ⟨lo, hi, hf, by omega, by omega⟩
                  · have : ¬ (List.length (s1 :: s2 :: t2) + 1 < sz) := by simp; omega
                    simp only [decodeRuneInString, h0, hf, if_false, h1, hsz2, h2, hsz3,
                      if_true, this]
                · cases t2 with
                  | nil =>
                    right; right; right; refine ⟨by omega, ?_⟩
                    simp only [decodeRuneInString, h0, hf, if_false, h1, hsz2, h2, hsz3]
                    split_ifs <;> rfl
                  | cons s3 t3 =>
                    by_cases h3 : s3.val < 0x80 ∨ 0xBF < s3.val
                    · right; right; right; refine ⟨by omega, ?_⟩
                      simp only [decodeRuneInString, h0, hf, if_false, h1, hsz2, h2, hsz3,
                        h3, if_true]
                      split_ifs <;> rfl
                    · right; right; left
                      refine ⟨s1, s2, s3, t3, rfl, ?_, by omega, by omega, by omega, by omega, ?_⟩
                      · have : sz = 4 := by omega
                        subst this
                        exact ⟨lo, hi, hf, by omega, by omega⟩
                      · have : ¬ (List.length (s1 :: s2 :: s3 :: t3) + 1 < sz) := by
                          simp; omega
                        simp only [decodeRuneInString, h0, hf, if_false, h1, hsz2, h2, hsz3,
                          h3, this]

theorem decode_one (s0 : Byte) (t : GoString) (h0 : s0.val < 0x80) :
    decodeRuneInString (s0 :: t) = (s0.val, 1) := by
  simp [decodeRuneInString, h0]

theorem decode_two (s0 s1 : Byte) (t : GoString) (h0 : 0x80 ≤ s0.val)
    (ha : accepts 2 s0.val s1.val) :
    decodeRuneInString (s0 :: s1 :: t) = (s0.val % 32 * 64 + s1.val % 64, 2) := by
  obtain ⟨lo, hi, hf, h1, h2⟩ := ha
  have h0' : ¬ s0.val < 0x80 := by omega
  have h1' : ¬ (s1.val < lo ∨ hi < s1.val) := by omega
  have : ¬ (List.length (s1 :: t) + 1 < 2) := by simp
  simp only [decodeRuneInString, h0', hf, if_false, h1', this, le_refl, if_true]

theorem decode_three (s0 s1 s2 : Byte) (t : GoString) (h0 : 0x80 ≤ s0.val)
    (ha : accepts 3 s0.val s1.val) (hl : 0x80 ≤ s2.val) (hh : s2.val ≤ 0xBF) :
    decodeRuneInString (s0 :: s1 :: s2 :: t) =
      (s0.val % 16 * 4096 + s1.val % 64 * 64 + s2.val % 64, 3) := by
  obtain ⟨lo, hi, hf, h1, h2⟩ := ha
  have h0' : ¬ s0.val < 0x80 := by omega
  have h1' : ¬ (s1.val < lo ∨ hi < s1.val) := by omega
  have h2' : ¬ (s2.val < 0x80 ∨ 0xBF < s2.val) := by omega
  have : ¬ (List.length (s1 :: s2 :: t) + 1 < 3) := by simp
  have h32 : ¬ (3 ≤ 2) := by omega
  simp only [decodeRuneInString, h0', hf, if_false, h1', h2', this, h32, le_refl, if_true]

theorem decode_four (s0 s1 s2 s3 : Byte) (t : GoString) (h0 : 0x80 ≤ s0.val)
    (ha : accepts 4 s0.val s1.val) (hl : 0x80 ≤ s2.val) (hh : s2.val ≤ 0xBF)
    (hl3 : 0x80 ≤ s3.val) (hh3 : s3.val ≤ 0xBF) :
    decodeRuneInString (s0 :: s1 :: s2 :: s3 :: t) =
      (s0.val % 8 * 262144 + s1.val % 64 * 4096 + s2.val % 64 * 64 + s3.val % 64, 4) := by
  obtain ⟨lo, hi, hf, h1, h2⟩ := ha
  have h0' : ¬ s0.val < 0x80 := by omega
  have h1' : ¬ (s1.val < lo ∨ hi < s1.val) := by omega
  have h2' : ¬ (s2.val < 0x80 ∨ 0xBF < s2.val) := by omega
  have h3' : ¬ (s3.val < 0x80 ∨ 0xBF < s3.val) := by omega
  have : ¬ (List.length (s1 :: s2 :: s3 :: t) + 1 < 4) := by simp
  have h42 : ¬ (4 ≤ 2) := by omega
  have h43 : ¬ (4 ≤ 3) := by omega
  simp only [decodeRuneInString, h0', hf, if_false, h1', h2', h3', this, h42, h43]

theorem encode_two (s0 s1 : Byte) (ha : accepts 2 s0.val s1.val) :
    validRune (s0.val % 32 * 64 + s1.val % 64) = true ∧
    0x80 ≤ s0.val % 32 * 64 + s1.val % 64 ∧
    appendRune (s0.val % 32 * 64 + s1.val % 64) = [s0, s1] := by
  obtain ⟨lo, hi, hf, h1, h2⟩ := ha
  have hb0 := s0.isLt
  have hb1 := s1.isLt
  have hr : 0xC2 ≤ s0.val ∧ s0.val ≤ 0xDF ∧ 0x80 ≤ s1.val ∧ s1.val ≤ 0xBF := by
    rcases first_some hf with hs | hs | hs | hs | hs | hs | hs | hs <;> omega
  generalize hre : s0.val % 32 * 64 + s1.val % 64 = r
  have r1 : 0x80 ≤ r := by omega
  have r2 : r ≤ 0x7FF := by omega
  refine ⟨?_, r1, ?_⟩
  · simp only [validRune, Bool.or_eq_true, decide_eq_true_eq]; left; omega
  · have c1 : ¬ r ≤ 0x7F := by omega
    simp only [appendRune, c1, r2, if_false, if_true]
    rw [byte_eq_of_val (b := s0) (by omega), byte_eq_of_val (b := s1) (by omega)]

theorem encode_three (s0 s1 s2 : Byte) (ha : accepts 3 s0.val s1.val)
    (hl : 0x80 ≤ s2.val) (hh : s2.val ≤ 0xBF) :
    validRune (s0.val % 16 * 4096 + s1.val % 64 * 64 + s2.val % 64) = true ∧
    0x80 ≤ s0.val % 16 * 4096 + s1.val % 64 * 64 + s2.val % 64 ∧
    appendRune (s0.val % 16 * 4096 + s1.val % 64 * 64 + s2.val % 64) = [s0, s1, s2] := by
  obtain ⟨lo, hi, hf, h1, h2⟩ := ha
  have hb0 := s0.isLt
  have hb1 := s1.isLt
  have hb2 := s2.isLt
  generalize hre : s0.val % 16 * 4096 + s1.val % 64 * 64 + s2.val % 64 = r
  have hr : 0xE0 ≤ s0.val ∧ s0.val ≤ 0xEF ∧ 0x80 ≤ s1.val ∧ s1.val ≤ 0xBF ∧ 0x800 ≤ r ∧
      r ≤ 0xFFFF ∧ ¬ (0xD800 ≤ r ∧ r ≤ 0xDFFF) := by
    rcases first_some hf with hs | hs | hs | hs | hs | hs | hs | hs <;> omega
  refine ⟨?_, by omega, ?_⟩
  · simp only [validRune, Bool.or_eq_true, Bool.and_eq_true, decide_eq_true_eq]; omega
  · have c1 : ¬ r ≤ 0x7F := by omega
    have c2 : ¬ r ≤ 0x7FF := by omega
    have c3 : ¬ (0x10FFFF < r ∨ (0xD800 ≤ r ∧ r ≤ 0xDFFF)) := by omega
    have c4 : r ≤ 0xFFFF := by omega
    simp only [appendRune, c1, c2, c3, c4, if_false, if_true]
    rw [byte_eq_of_val (b := s0) (by omega), byte_eq_of_val (b := s1) (by omega),
      byte_eq_of_val (b := s2) (by omega)]

theorem encode_four (s0 s1 s2 s3 : Byte) (ha : accepts 4 s0.val s1.val)
    (hl : 0x80 ≤ s2.val) (hh : s2.val ≤ 0xBF) (hl3 : 0x80 ≤ s3.val) (hh3 : s3.val ≤ 0xBF) :
    validRune (s0.val % 8 * 262144 + s1.val % 64 * 4096 + s2.val % 64 * 64 + s3.val % 64)
      = true ∧
    0x10000 ≤ s0.val % 8 * 262144 + s1.val % 64 * 4096 + s2.val % 64 * 64 + s3.val % 64 ∧
    appendRune (s0.val % 8 * 262144 + s1.val % 64 * 4096 + s2.val % 64 * 64 + s3.val % 64)
      = [s0, s1, s2, s3] := by
  obtain ⟨lo, hi, hf, h1, h2⟩ := ha
  have hb0 := s0.isLt
  have hb1 := s1.isLt
  have hb2 := s2.isLt
  have hb3 := s3.isLt
  generalize hre : s0.val % 8 * 262144 + s1.val % 64 * 4096 + s2.val % 64 * 64 + s3.val % 64 = r
  have hr : 0xF0 ≤ s0.val ∧ s0.val ≤ 0xF4 ∧ 0x80 ≤ s1.val ∧ s1.val ≤ 0xBF ∧ 0x10000 ≤ r ∧
      r ≤ 0x10FFFF := by
    rcases first_some hf with hs | hs | hs | hs | hs | hs | hs | hs <;> omega
  refine ⟨?_, by omega, ?_⟩
  · simp only [validRune, Bool.or_eq_true, Bool.and_eq_true, decide_eq_true_eq]; omega
  · have c1 : ¬ r ≤ 0x7F := by omega
    have c2 : ¬ r ≤ 0x7FF := by omega
    have c3 : ¬ (0x10FFFF < r ∨ (0xD800 ≤ r ∧ r ≤ 0xDFFF)) := by omega
    have c4 : ¬ r ≤ 0xFFFF := by omega
    simp only [appendRune, c1, c2, c3, c4, if_false]
    rw [byte_eq_of_val (b := s0) (by omega), byte_eq_of_val (b := s1) (by omega),
      byte_eq_of_val (b := s2) (by omega), byte_eq_of_val (b := s3) (by omega)]

/-- What a successful decoding guarantees: the rune is valid, its encoding is
the bytes read, and the result depends on those bytes only. -/
theorem decode_spec (s0 : Byte) (t : GoString) (r w : Nat)
    (h : decodeRuneInString (s0 :: t) = (r, w)) (hne : ¬ (w = 1 ∧ r = RuneError)) :
    validRune r = true ∧ appendRune r = (s0 :: t).take w ∧ 1 ≤ w ∧ w ≤ t.length + 1 ∧
      (s0.val < 0x80 → r = s0.val ∧ w = 1) ∧ (0x80 ≤ s0.val → 0x80 ≤ r ∧ 0xC2 ≤ s0.val) ∧
      ∀ rest, decodeRuneInString ((s0 :: t).take w ++ rest) = (r, w) := by
  rcases decode_cases s0 t with ⟨h0, hd⟩ | ⟨s1, t1, rfl, ha, hd⟩ |
    ⟨s1, s2, t2, rfl, ha, hl, hh, hd⟩ | ⟨s1, s2, s3, t3, rfl, ha, hl, hh, hl3, hh3, hd⟩ |
    ⟨h0, hd⟩
  · rw [hd] at h
    simp only [Prod.mk.injEq] at h
    obtain ⟨rfl, rfl⟩ := h
    refine ⟨?_, ?_, by omega, by omega, fun _ => ⟨rfl, rfl⟩, by omega, ?_⟩
    · simp only [validRune, Bool.or_eq_true, decide_eq_true_eq]; left; omega
    · simp only [appendRune, show s0.val ≤ 0x7F by omega, if_true, List.take_succ_cons,
        List.take_zero]
      rw [byte_eq_of_val rfl]
    · intro rest
      exact decode_one s0 _ h0
  · rw [hd] at h
    simp only [Prod.mk.injEq] at h
    obtain ⟨rfl, rfl⟩ := h
    obtain ⟨lo, hi, hf, -, -⟩ := id ha
    have hs := first_size hf
    obtain ⟨e1, e2, e3⟩ := encode_two s0 s1 ha
    refine ⟨e1, by simpa using e3, by omega, by simp, by omega, fun _ => ⟨e2, by omega⟩, ?_⟩
    intro rest
    exact decode_two s0 s1 _ (by omega) ha
  · rw [hd] at h
    simp only [Prod.mk.injEq] at h
    obtain ⟨rfl, rfl⟩ := h
    obtain ⟨lo, hi, hf, -, -⟩ := id ha
    have hs := first_size hf
    obtain ⟨e1, e2, e3⟩ := encode_three s0 s1 s2 ha hl hh
    refine ⟨e1, by simpa using e3, by omega, by simp, by omega, fun _ => ⟨e2, by omega⟩, ?_⟩
    intro rest
    exact decode_three s0 s1 s2 _ (by omega) ha hl hh
  · rw [hd] at h
    simp only [Prod.mk.injEq] at h
    obtain ⟨rfl, rfl⟩ := h
    obtain ⟨lo, hi, hf, -, -⟩ := id ha
    have hs := first_size hf
    obtain ⟨e1, e2, e3⟩ := encode_four s0 s1 s2 s3 ha hl hh hl3 hh3
    refine ⟨e1, by simpa using e3, by omega, by simp, by omega,
      fun _ => ⟨by omega, by omega⟩, ?_⟩
    intro rest
    exact decode_four s0 s1 s2 s3 _ (by omega) ha hl hh hl3 hh3
  · rw [hd] at h
    simp only [Prod.mk.injEq] at h
    exact absurd ⟨h.2.symm, h.1.symm⟩ hne

/-! ## Lemmas on reading back what `strconv.Quote` writes -/

theorem unhex_lowerhex (n : Nat) (h : n < 16) : unhex (lowerhex n) = some n := by
  interval_cases n <;> rfl

theorem appendRune_head (r : Nat) :
    ∃ c ct, appendRune r = c :: ct ∧ (r < 0x80 → c.val = r) ∧ (0x80 ≤ r → 0xC0 ≤ c.val) := by
  unfold appendRune
  split_ifs with h1 h2 h3 h4
  · exact ⟨_, _, rfl, fun _ => by rw [byte_val]; omega, fun _ => by omega⟩
  · exact ⟨_, _, rfl, fun _ => by omega, fun _ => by rw [byte_val]; omega⟩
  · exact ⟨_, _, rfl, fun _ => by omega, fun _ => by decide⟩
  · exact ⟨_, _, rfl, fun _ => by omega, fun _ => by rw [byte_val]; omega⟩
  · exact ⟨_, _, rfl, fun _ => by omega, fun _ => by rw [byte_val]; omega⟩

theorem scans_hex_byte (tab : Nat → Bool) (n : Nat) (hn : n < 256) (rest : GoString) :
    ScansTo tab [0x5C, 0x78, lowerhex (n / 16), lowerhex (n % 16)] rest [byte n] := by
  refine ⟨⟨none, [byte n]⟩, ?_, rfl, ⟨_, _, rfl, by decide⟩, fun r h => by simp at h⟩
  have e : n / 16 * 16 + n % 16 = n := by omega
  simp [scanItem, scanEscape, hexDigits, unhex_lowerhex, show n / 16 < 16 by omega,
    show n % 16 < 16 from Nat.mod_lt _ (by norm_num), e]

theorem scans_simple (tab : Nat → Bool) (c v : Byte) (rest : GoString)
    (h : scanEscape (c :: rest) = some (⟨none, [v]⟩, rest)) :
    ScansTo tab [0x5C, c] rest [v] :=
  ⟨⟨none, [v]⟩, h, rfl, ⟨_, _, rfl, by decide⟩, fun r hr => by simp at hr⟩

theorem scans_u4 (tab : Nat → Bool) (r : Nat) (hr : r < 0x10000) (hv : validRune r = true) (rest : GoString) :
    ScansTo tab [0x5C, 0x75, lowerhex (r / 4096 % 16), lowerhex (r / 256 % 16),
        lowerhex (r / 16 % 16), lowerhex (r % 16)] rest (appendRune r) := by
  refine ⟨⟨none, appendRune r⟩, ?_, rfl, ⟨_, _, rfl, by decide⟩, fun r h => by simp at h⟩
  have e : ((r / 4096 % 16 * 16 + r / 256 % 16) * 16 + r / 16 % 16) * 16 + r % 16 = r := by
    omega
  have m : ∀ k, k % 16 < 16 := fun k => Nat.mod_lt _ (by norm_num)
  simp [scanItem, scanEscape, hexDigits, unhex_lowerhex, m, e, hv]

theorem scans_u8 (tab : Nat → Bool) (r : Nat) (hr : r < 0x110000) (hv : validRune r = true) (rest : GoString) :
    ScansTo tab [0x5C, 0x55, lowerhex (r / 268435456 % 16), lowerhex (r / 16777216 % 16),
        lowerhex (r / 1048576 % 16), lowerhex (r / 65536 % 16),
        lowerhex (r / 4096 % 16), lowerhex (r / 256 % 16),
        lowerhex (r / 16 % 16), lowerhex (r % 16)] rest (appendRune r) := by
  refine ⟨⟨none, appendRune r⟩, ?_, rfl, ⟨_, _, rfl, by decide⟩, fun r h => by simp at h⟩
  have e : (((((((r / 268435456 % 16 * 16 + r / 16777216 % 16) * 16 + r / 1048576 % 16) * 16
      + r / 65536 % 16) * 16 + r / 4096 % 16) * 16 + r / 256 % 16) * 16 + r / 16 % 16) * 16
      + r % 16) = r := by
    omega
  have m : ∀ k, k % 16 < 16 := fun k => Nat.mod_lt _ (by norm_num)
  simp [scanItem, scanEscape, hexDigits, unhex_lowerhex, m, e, hv]

theorem isPrint_facts (tab : Nat → Bool) (r : Nat) (h : isPrint tab r = true) :
    0x20 ≤ r ∧ r ≠ 0x7F ∧ isControl r = false := by
  unfold isPrint at h
  split_ifs at h with h1 h2 h3
  · refine ⟨by omega, by omega, ?_⟩
    simp only [isControl, Bool.or_eq_false_iff, Bool.and_eq_false_iff, decide_eq_false_iff_not]
    omega
  · refine ⟨by omega, by omega, ?_⟩
    simp only [isControl, Bool.or_eq_false_iff, Bool.and_eq_false_iff, decide_eq_false_iff_not]
    omega
  · refine ⟨by omega, by omega, ?_⟩
    simp only [isControl, Bool.or_eq_false_iff, Bool.and_eq_false_iff, decide_eq_false_iff_not]
    omega

theorem scans_raw (tab : Nat → Bool) (r w : Nat) (rest : GoString) (hq : r ≠ 0x22)
    (hb : r ≠ 0x5C) (h20 : 0x20 ≤ r) (hp : isPrint tab r = true)
    (hd : decodeRuneInString (appendRune r ++ rest) = (r, w))
    (hw : (appendRune r).length = w) (h3 : r = RuneError → w ≠ 1) :
    ScansTo tab (appendRune r) rest (appendRune r) := by
  obtain ⟨c, ct, hcons, hlo, hhi⟩ := appendRune_head r
  have hc22 : c ≠ 0x22 := by
    intro h
    have hcv : c.val = 0x22 := by rw [h]; rfl
    by_cases hr : r < 0x80
    · have := hlo hr; omega
    · have := hhi (by omega); omega
  have hc5c : c ≠ 0x5C := by
    intro h
    have hcv : c.val = 0x5C := by rw [h]; rfl
    by_cases hr : r < 0x80
    · have := hlo hr; omega
    · have := hhi (by omega); omega
  have hc0a : c ≠ 0x0A := by
    intro h
    have hcv : c.val = 0x0A := by rw [h]; rfl
    by_cases hr : r < 0x80
    · have := hlo hr; omega
    · have := hhi (by omega); omega
  refine ⟨⟨some r, appendRune r⟩, ?_, rfl, ⟨c, ct, hcons, hc22⟩, ?_⟩
  · have hd' := hd
    rw [hcons] at hd' ⊢
    have hne : ¬ (r = RuneError ∧ w = 1) := fun h => h3 h.1 h.2
    have hr0 : r ≠ 0 := by omega
    have e1 : List.take w (c :: ct ++ rest) = c :: ct := by
      have : w = (c :: ct).length := by rw [← hcons, hw]
      rw [this]; exact List.take_left' rfl
    have e2 : List.drop w (c :: ct ++ rest) = rest := by
      have : w = (c :: ct).length := by rw [← hcons, hw]
      rw [this]; exact List.drop_left' rfl
    simp only [List.cons_append] at hd' e1 e2
    simp only [scanItem, List.cons_append, hc5c, hc0a, if_false, hd', hne, hr0, e1, e2]
  · intro r' h
    simp only [Option.some.injEq] at h
    rw [← h]; exact hp

/-- The bytes `appendEscapedRune` writes for a valid rune are read back as one
element denoting the encoding of the rune. -/
theorem scans_escaped (tab : Nat → Bool) (r w : Nat) (rest : GoString)
    (hv : validRune r = true)
    (hd : decodeRuneInString (appendRune r ++ rest) = (r, w))
    (hw : (appendRune r).length = w) (h3 : r = RuneError → w ≠ 1) :
    ScansTo tab (appendEscapedRune tab r) rest (appendRune r) := by
  have hvr : r < 0x110000 := by
    simp only [validRune, Bool.or_eq_true, Bool.and_eq_true, decide_eq_true_eq] at hv; omega
  have small : ∀ n, n < 0x80 → r = n → appendRune r = [byte n] := by
    intro n hn e; subst e; simp [appendRune, show r ≤ 0x7F by omega]
  unfold appendEscapedRune
  by_cases h1 : r = 0x22 ∨ r = 0x5C
  · rw [if_pos h1]
    rcases h1 with rfl | rfl
    · exact scans_simple tab _ _ rest rfl
    · exact scans_simple tab _ _ rest rfl
  rw [if_neg h1]
  by_cases h2 : isPrint tab r = true
  · rw [if_pos h2]
    obtain ⟨p1, p2, p3⟩ := isPrint_facts tab r h2
    exact scans_raw tab r w rest (by omega) (by omega) p1 h2 hd hw h3
  rw [if_neg h2]
  by_cases c1 : r = 0x07
  · rw [if_pos c1]; subst c1; exact scans_simple tab _ _ rest rfl
  rw [if_neg c1]
  by_cases c2 : r = 0x08
  · rw [if_pos c2]; subst c2; exact scans_simple tab _ _ rest rfl
  rw [if_neg c2]
  by_cases c3 : r = 0x0C
  · rw [if_pos c3]; subst c3; exact scans_simple tab _ _ rest rfl
  rw [if_neg c3]
  by_cases c4 : r = 0x0A
  · rw [if_pos c4]; subst c4; exact scans_simple tab _ _ rest rfl
  rw [if_neg c4]
  by_cases c5 : r = 0x0D
  · rw [if_pos c5]; subst c5; exact scans_simple tab _ _ rest rfl
  rw [if_neg c5]
  by_cases c6 : r = 0x09
  · rw [if_pos c6]; subst c6; exact scans_simple tab _ _ rest rfl
  rw [if_neg c6]
  by_cases c7 : r = 0x0B
  · rw [if_pos c7]; subst c7; exact scans_simple tab _ _ rest rfl
  rw [if_neg c7]
  by_cases c8 : r < 0x20 ∨ r = 0x7F
  · rw [if_pos c8]
    have hr : r < 0x80 := by omega
    rw [small r hr rfl, Nat.mod_eq_of_lt (show r < 256 by omega)]
    exact scans_hex_byte tab r (by omega) rest
  rw [if_neg c8]
  simp only [hv, if_true, Bool.not_true, Bool.false_or, decide_eq_true_eq]
  by_cases c9 : r < 0x10000
  · rw [if_pos c9]; exact scans_u4 tab r c9 hv rest
  · rw [if_neg c9]; exact scans_u8 tab r hvr hv rest

/-! ## The escaping contract of the emitter -/

/-- Each iteration of the quoting loop writes bytes that are read back as one
element denoting exactly the bytes the iteration consumed. -/
theorem quoteStep_scans (tab : Nat → Bool) (s0 : Byte) (t rest : GoString) :
    ScansTo tab (quoteStep tab s0 t).1 rest ((s0 :: t).take (quoteStep tab s0 t).2) ∧
      1 ≤ (quoteStep tab s0 t).2 ∧ (quoteStep tab s0 t).2 ≤ t.length + 1 := by
  have hrw : (if 0x80 ≤ s0.val then decodeRuneInString (s0 :: t) else (s0.val, 1))
      = decodeRuneInString (s0 :: t) := by
    split_ifs with h
    · rfl
    · exact (decode_one s0 t (by omega)).symm
  unfold quoteStep
  simp only [hrw]
  rcases hd : decodeRuneInString (s0 :: t) with ⟨r, w⟩
  by_cases hbad : w = 1 ∧ r = RuneError
  · simp only [hbad, and_self, if_true]
    refine ⟨?_, by omega, by omega⟩
    simp only [List.take_succ_cons, List.take_zero]
    have := scans_hex_byte tab s0.val s0.isLt rest
    rwa [byte_eq_of_val rfl] at this
  · simp only [hbad, if_false]
    obtain ⟨hv, henc, hw1, hw2, -, -, hloc⟩ := decode_spec s0 t r w hd hbad
    refine ⟨?_, hw1, hw2⟩
    rw [← henc]
    have hlen : (appendRune r).length = w := by
      rw [henc, List.length_take]; simp; omega
    refine scans_escaped tab r w rest hv ?_ hlen (fun h1 h2 => hbad ⟨h2, h1⟩)
    rw [henc]; exact hloc rest

/-- Reading back the body written by the quoting loop, followed by the closing
quote, yields the string that was quoted. -/
theorem unquoteBody_quoteLoop (tab : Nat → Bool) :
    ∀ (fuel : Nat) (s : GoString), s.length ≤ fuel →
      ∀ k, (quoteLoop tab fuel s).length < k →
        unquoteBody k (quoteLoop tab fuel s ++ [0x22]) = some s := by
  intro fuel
  induction fuel with
  | zero =>
    intro s hs k hk
    have : s = [] := List.length_eq_zero.mp (by omega)
    subst this
    cases k with
    | zero => omega
    | succ k => simp [quoteLoop, unquoteBody]
  | succ fuel ih =>
    intro s hs k hk
    cases s with
    | nil =>
      cases k with
      | zero => omega
      | succ k => simp [quoteLoop, unquoteBody]
    | cons s0 t =>
      obtain ⟨⟨it, hscan, hval, ⟨c, ct, hchunk, hc⟩, -⟩, hw1, hw2⟩ :=
        quoteStep_scans tab s0 t
          (quoteLoop tab fuel ((s0 :: t).drop (quoteStep tab s0 t).2) ++ [0x22])
      simp only [quoteLoop, List.length_append] at hk
      cases k with
      | zero => omega
      | succ k =>
        have hdrop : ((s0 :: t).drop (quoteStep tab s0 t).2).length ≤ fuel := by
          rw [List.length_drop]; simp at hs ⊢; omega
        have hlenc : 1 ≤ (quoteStep tab s0 t).1.length := by rw [hchunk]; simp
        have ihr := ih _ hdrop k (by omega)
        simp only [quoteLoop, List.append_assoc]
        rw [hchunk] at hscan ⊢
        simp only [List.cons_append] at hscan ⊢
        simp only [unquoteBody, hc, if_false, hscan, ihr, Option.map_some', hval,
          List.take_append_drop]

/-- The body written by the quoting loop is safely escaped. -/
theorem safeBody_quoteLoop (tab : Nat → Bool) :
    ∀ (fuel : Nat) (s : GoString), s.length ≤ fuel →
      ∀ k, (quoteLoop tab fuel s).length ≤ k →
        safeBody k (quoteLoop tab fuel s) = true := by
  intro fuel
  induction fuel with
  | zero =>
    intro s hs k hk
    simp [quoteLoop, safeBody]
  | succ fuel ih =>
    intro s hs k hk
    cases s with
    | nil => simp [quoteLoop, safeBody]
    | cons s0 t =>
      obtain ⟨⟨it, hscan, hval, ⟨c, ct, hchunk, hc⟩, hraw⟩, hw1, hw2⟩ :=
        quoteStep_scans tab s0 t (quoteLoop tab fuel ((s0 :: t).drop (quoteStep tab s0 t).2))
      simp only [quoteLoop, List.length_append] at hk
      have hlenc : 1 ≤ (quoteStep tab s0 t).1.length := by rw [hchunk]; simp
      cases k with
      | zero => omega
      | succ k =>
        have hdrop : ((s0 :: t).drop (quoteStep tab s0 t).2).length ≤ fuel := by
          rw [List.length_drop]; simp at hs ⊢; omega
        have ihr := ih _ hdrop k (by omega)
        simp only [quoteLoop]
        rw [hchunk] at hscan ⊢
        simp only [List.cons_append] at hscan ⊢
        simp only [safeBody, hc, if_false, hscan, ihr, Bool.and_true]
        cases hr : it.raw with
        | none => rfl
        | some r => simp [(isPrint_facts tab r (hraw r hr)).2.2]

/-- Every code point that the quoting loop writes unescaped is printable. -/
theorem rawPrintable_quoteLoop (tab : Nat → Bool) :
    ∀ (fuel : Nat) (s : GoString), s.length ≤ fuel →
      ∀ k, (quoteLoop tab fuel s).length ≤ k →
        rawPrintable tab k (quoteLoop tab fuel s) = true := by
  intro fuel
  induction fuel with
  | zero =>
    intro s hs k hk
    simp [quoteLoop, rawPrintable]
  | succ fuel ih =>
    intro s hs k hk
    cases s with
    | nil => simp [quoteLoop, rawPrintable]
    | cons s0 t =>
      obtain ⟨⟨it, hscan, hval, ⟨c, ct, hchunk, hc⟩, hraw⟩, hw1, hw2⟩ :=
        quoteStep_scans tab s0 t (quoteLoop tab fuel ((s0 :: t).drop (quoteStep tab s0 t).2))
      simp only [quoteLoop, List.length_append] at hk
      have hlenc : 1 ≤ (quoteStep tab s0 t).1.length := by rw [hchunk]; simp
      cases k with
      | zero => omega
      | succ k =>
        have hdrop : ((s0 :: t).drop (quoteStep tab s0 t).2).length ≤ fuel := by
          rw [List.length_drop]; simp at hs ⊢; omega
        have ihr := ih _ hdrop k (by omega)
        simp only [quoteLoop]
        rw [hchunk] at hscan ⊢
        simp only [List.cons_append] at hscan ⊢
        simp only [rawPrintable, hscan, ihr, Bool.and_true]
        cases hr : it.raw with
        | none => rfl
        | some r => simp [hraw r hr]

theorem lowerhex_clean (n : Nat) (h : n < 16) : cleanByte (lowerhex n) := by
  unfold cleanByte
  interval_cases n <;> decide

theorem appendRune_clean (r : Nat) (h : 0x20 ≤ r) (h7 : r ≠ 0x7F) :
    ∀ b ∈ appendRune r, cleanByte b := by
  unfold appendRune cleanByte
  split_ifs with h1 h2 h3 h4
  · intro b hb
    simp only [List.mem_singleton] at hb
    subst hb
    rw [byte_val]; omega
  · intro b hb
    simp only [List.mem_cons, List.mem_singleton, List.not_mem_nil, or_false] at hb
    rcases hb with rfl | rfl <;> rw [byte_val] <;> omega
  · intro b hb
    simp only [List.mem_cons, List.mem_singleton, List.not_mem_nil, or_false] at hb
    rcases hb with rfl | rfl | rfl <;> decide
  · intro b hb
    simp only [List.mem_cons, List.mem_singleton, List.not_mem_nil, or_false] at hb
    rcases hb with rfl | rfl | rfl <;> rw [byte_val] <;> omega
  · intro b hb
    simp only [List.mem_cons, List.mem_singleton, List.not_mem_nil, or_false] at hb
    rcases hb with rfl | rfl | rfl | rfl <;> rw [byte_val] <;> omega

theorem clean_of_list {l : List Byte} (h : l.all (fun b => 0x20 ≤ b.val ∧ b.val ≠ 0x7F) = true) :
    ∀ b ∈ l, cleanByte b := by
  intro b hb
  have := List.all_eq_true.mp h b hb
  simpa [cleanByte] using this

theorem appendEscapedRune_clean (tab : Nat → Bool) (r : Nat) :
    ∀ b ∈ appendEscapedRune tab r, cleanByte b := by
  have m : ∀ k, k % 16 < 16 := fun k => Nat.mod_lt _ (by norm_num)
  unfold appendEscapedRune
  by_cases h1 : r = 0x22 ∨ r = 0x5C
  · rw [if_pos h1]
    rcases h1 with rfl | rfl <;> exact clean_of_list (by decide)
  rw [if_neg h1]
  by_cases h2 : isPrint tab r = true
  · rw [if_pos h2]
    obtain ⟨p1, p2, -⟩ := isPrint_facts tab r h2
    exact appendRune_clean r p1 p2
  rw [if_neg h2]
  by_cases c1 : r = 0x07
  · rw [if_pos c1]; exact clean_of_list (by decide)
  rw [if_neg c1]
  by_cases c2 : r = 0x08
  · rw [if_pos c2]; exact clean_of_list (by decide)
  rw [if_neg c2]
  by_cases c3 : r = 0x0C
  · rw [if_pos c3]; exact clean_of_list (by decide)
  rw [if_neg c3]
  by_cases c4 : r = 0x0A
  · rw [if_pos c4]; exact clean_of_list (by decide)
  rw [if_neg c4]
  by_cases c5 : r = 0x0D
  · rw [if_pos c5]; exact clean_of_list (by decide)
  rw [if_neg c5]
  by_cases c6 : r = 0x09
  · rw [if_pos c6]; exact clean_of_list (by decide)
  rw [if_neg c6]
  by_cases c7 : r = 0x0B
  · rw [if_pos c7]; exact clean_of_list (by decide)
  rw [if_neg c7]
  by_cases c8 : r < 0x20 ∨ r = 0x7F
  · rw [if_pos c8]
    intro b hb
    simp only [List.mem_cons, List.mem_singleton, List.not_mem_nil, or_false] at hb
    rcases hb with rfl | rfl | rfl | rfl
    · unfold cleanByte; decide
    · unfold cleanByte; decide
    · exact lowerhex_clean _ (by omega)
    · exact lowerhex_clean _ (m _)
  rw [if_neg c8]
  intro b hb
  dsimp only at hb
  split_ifs at hb
  all_goals
    simp only [List.mem_cons, List.mem_singleton, List.not_mem_nil, or_false] at hb
    rcases hb with rfl | hb
    · unfold cleanByte; decide
    rcases hb with rfl | hb
    · unfold cleanByte; decide
    first
      | (rcases hb with rfl | rfl | rfl | rfl <;> exact lowerhex_clean _ (m _))
      | (rcases hb with rfl | rfl | rfl | rfl | rfl | rfl | rfl | rfl <;>
          exact lowerhex_clean _ (m _))

theorem quoteStep_clean (tab : Nat → Bool) (s0 : Byte) (t : GoString) :
    ∀ b ∈ (quoteStep tab s0 t).1, cleanByte b := by
  unfold quoteStep
  dsimp only
  split_ifs with h
  · intro b hb
    simp only [List.mem_cons, List.mem_singleton, List.not_mem_nil, or_false] at hb
    rcases hb with rfl | rfl | rfl | rfl
    · unfold cleanByte; decide
    · unfold cleanByte; decide
    · exact lowerhex_clean _ (by have := s0.isLt; omega)
    · exact lowerhex_clean _ (Nat.mod_lt _ (by norm_num))
  · exact appendEscapedRune_clean tab _
  · intro b hb
    simp only [List.mem_cons, List.mem_singleton, List.not_mem_nil, or_false] at hb
    rcases hb with rfl | rfl | rfl | rfl
    · unfold cleanByte; decide
    · unfold cleanByte; decide
    · exact lowerhex_clean _ (by have := s0.isLt; omega)
    · exact lowerhex_clean _ (Nat.mod_lt _ (by norm_num))
  · exact appendEscapedRune_clean tab _

theorem quoteLoop_clean (tab : Nat → Bool) :
    ∀ (fuel : Nat) (s : GoString), ∀ b ∈ quoteLoop tab fuel s, cleanByte b := by
  intro fuel
  induction fuel with
  | zero => intro s b hb; simp [quoteLoop] at hb
  | succ fuel ih =>
    intro s b hb
    cases s with
    | nil => simp [quoteLoop] at hb
    | cons s0 t =>
      simp only [quoteLoop, List.mem_append] at hb
      rcases hb with hb | hb
      · exact quoteStep_clean tab s0 t b hb
      · exact ih _ b hb

/-- C1. For every string `s`, the literal that `printf "%q"` produces for `s` is
one Go interpreted string literal, and reading it back the way Go source is read
yields exactly `s`, whatever the printable-rune tables contain. Moreover every
code point that the literal holds unescaped satisfies `strconv.IsPrint`, so the
literal holds none of the characters that a Go compiler may refuse in source
text: NUL is not printable, and the byte order mark U+FEFF is a format character
that the library's tables do not list. -/
theorem printfQ_roundtrip (tab : Nat → Bool) (s : GoString) :
    unquote (printfQ tab s) = some s ∧
    ∃ body, printfQ tab s = 0x22 :: (body ++ [0x22]) ∧
      rawPrintable tab body.length body = true := by
  refine ⟨?_, quoteLoop tab s.length s, rfl,
    rawPrintable_quoteLoop tab s.length s (le_refl _) _ (le_refl _)⟩
  simp only [printfQ, quote, unquote, if_true]
  exact unquoteBody_quoteLoop tab s.length s (le_refl _) _ (by simp)

/-- C2. For every string `s`, the literal emitted for `s` starts and ends with a
double quote, and the body between the two cannot end the literal early: read
from left to right, it has no double quote outside an escape sequence, every
backslash starts a complete escape sequence, and no control character is
written raw; in particular no byte of the body is an ASCII control character,
so the body holds no raw newline. -/
theorem printfQ_no_breakout (tab : Nat → Bool) (s : GoString) :
    ∃ body, printfQ tab s = 0x22 :: (body ++ [0x22]) ∧
      safeBody body.length body = true ∧
      (∀ b ∈ body, 0x20 ≤ b.val ∧ b.val ≠ 0x7F) ∧ (0x0A : Byte) ∉ body := by
  refine ⟨quoteLoop tab s.length s, rfl,
    safeBody_quoteLoop tab s.length s (le_refl _) _ (le_refl _),
    quoteLoop_clean tab s.length s, ?_⟩
  intro h
  have := (quoteLoop_clean tab s.length s _ h).1
  exact absurd this (by decide)

/-! ## Lemmas on the byte-wise order and on sorting -/

theorem stringsCompare_self (a : GoString) : stringsCompare a a = 0 := by
  induction a with
  | nil => rfl
  | cons x xs ih => simp [stringsCompare, ih]

theorem stringsCompare_values (a b : GoString) :
    stringsCompare a b = -1 ∨ stringsCompare a b = 0 ∨ stringsCompare a b = 1 := by
  induction a generalizing b with
  | nil => cases b <;> simp [stringsCompare]
  | cons x xs ih =>
    cases b with
    | nil => simp [stringsCompare]
    | cons y ys =>
      simp only [stringsCompare]
      split_ifs
      · simp
      · simp
      · exact ih ys

theorem stringsCompare_eq_zero {a b : GoString} : stringsCompare a b = 0 ↔ a = b := by
  constructor
  · intro h
    induction a generalizing b with
    | nil => cases b with
      | nil => rfl
      | cons y ys => simp [stringsCompare] at h
    | cons x xs ih =>
      cases b with
      | nil => simp [stringsCompare] at h
      | cons y ys =>
        simp only [stringsCompare] at h
        split_ifs at h with h1 h2
        · omega
        · have : x = y := Fin.ext (by omega)
          rw [this, ih h]
  · rintro rfl; exact stringsCompare_self a

theorem stringsCompare_neg {a b : GoString} : stringsCompare a b < 0 ↔ byteLT a b := by
  unfold byteLT
  induction a generalizing b with
  | nil => cases b with
    | nil => simp [stringsCompare]
    | cons y ys => simp [stringsCompare, List.Lex.nil]
  | cons x xs ih =>
    cases b with
    | nil => simp [stringsCompare]
    | cons y ys =>
      simp only [stringsCompare]
      split_ifs with h1 h2
      · simp only [Int.reduceNeg, Int.reduceLT, true_iff]
        exact List.Lex.rel (by exact h1)
      · simp only [Int.reduceLT, false_iff]
        intro h
        cases h with
        | cons h => have : x.val < x.val := h2; omega
        | rel h => have : x.val < y.val := h; omega
      · have : x = y := Fin.ext (by omega)
        subst this
        rw [ih]
        constructor
        · exact fun h => List.Lex.cons h
        · intro h
          cases h with
          | cons h => exact h
          | rel h => exact absurd h (lt_irrefl _)

theorem stringsCompare_swap (a b : GoString) : stringsCompare b a = - stringsCompare a b := by
  induction a generalizing b with
  | nil => cases b <;> simp [stringsCompare]
  | cons x xs ih =>
    cases b with
    | nil => simp [stringsCompare]
    | cons y ys =>
      simp only [stringsCompare]
      split_ifs <;> first | omega | simp | exact ih ys

theorem byteLT_irrefl (a : GoString) : ¬ byteLT a a := by
  intro h
  have := (stringsCompare_neg (a := a) (b := a)).mpr h
  rw [stringsCompare_self] at this
  omega

theorem byteLT_asymm {a b : GoString} (h : byteLT a b) : ¬ byteLT b a := by
  intro h'
  have h1 := stringsCompare_neg.mpr h
  have h2 := stringsCompare_neg.mpr h'
  rw [stringsCompare_swap a b] at h2
  omega

theorem byteLT_trans {a b c : GoString} (h1 : byteLT a b) (h2 : byteLT b c) : byteLT a c := by
  unfold byteLT at *
  exact IsTrans.trans a b c h1 h2

/-- The comparison never answers "below" exactly when the order holds the other
way round. -/
theorem not_compare_neg_iff {a b : GoString} : ¬ stringsCompare b a < 0 ↔ byteLE a b := by
  unfold byteLE
  constructor
  · intro h
    rcases stringsCompare_values b a with h1 | h1 | h1
    · omega
    · left; exact (stringsCompare_eq_zero.mp h1).symm
    · right
      apply stringsCompare_neg.mp
      rw [stringsCompare_swap b a, h1]; decide
  · rintro (rfl | h)
    · rw [stringsCompare_self]; decide
    · exact fun h' => byteLT_asymm h (stringsCompare_neg.mp h')

theorem byteLE_refl (a : GoString) : byteLE a a := Or.inl rfl

theorem byteLE_trans {a b c : GoString} (h1 : byteLE a b) (h2 : byteLE b c) : byteLE a c := by
  rcases h1 with rfl | h1
  · exact h2
  · rcases h2 with rfl | h2
    · exact Or.inr h1
    · exact Or.inr (byteLT_trans h1 h2)

theorem byteLE_total (a b : GoString) : byteLE a b ∨ byteLE b a := by
  by_cases h : stringsCompare b a < 0
  · right; exact Or.inr (stringsCompare_neg.mp h)
  · left; exact not_compare_neg_iff.mp h

theorem byteLE_antisymm {a b : GoString} (h1 : byteLE a b) (h2 : byteLE b a) : a = b := by
  rcases h1 with rfl | h1
  · rfl
  · rcases h2 with rfl | h2
    · rfl
    · exact absurd h2 (byteLT_asymm h1)

section Sorting

variable {α : Type}

theorem insertStable_eq_orderedInsert (cmp : α → α → Int) (x : α) (l : List α) :
    insertStable cmp x l = List.orderedInsert (fun a b => ¬ cmp b a < 0) x l := by
  induction l with
  | nil => rfl
  | cons y ys ih =>
    simp only [insertStable, List.orderedInsert, ih, ite_not]

theorem sortStableFunc_eq_insertionSort (cmp : α → α → Int) (l : List α) :
    sortStableFunc cmp l = List.insertionSort (fun a b => ¬ cmp b a < 0) l := by
  induction l with
  | nil => rfl
  | cons x xs ih =>
    simp only [sortStableFunc, List.insertionSort, ih, insertStable_eq_orderedInsert]

theorem sortStableFunc_perm (cmp : α → α → Int) (l : List α) :
    (sortStableFunc cmp l).Perm l := by
  rw [sortStableFunc_eq_insertionSort]
  exact List.perm_insertionSort _ l

/-- Sorting by the byte-wise comparison of a key yields a list whose keys
ascend. -/
theorem sortStableFunc_sorted (f : α → GoString) (l : List α) :
    List.Sorted (fun a b => byteLE (f a) (f b))
      (sortStableFunc (fun a b => stringsCompare (f a) (f b)) l) := by
  rw [sortStableFunc_eq_insertionSort]
  have hiff : ∀ a b : α, (¬ stringsCompare (f b) (f a) < 0) ↔ byteLE (f a) (f b) :=
    fun a b => not_compare_neg_iff
  haveI : IsTotal α (fun a b => ¬ stringsCompare (f b) (f a) < 0) :=
    ⟨fun a b => by rw [hiff, hiff]; exact byteLE_total _ _⟩
  haveI : IsTrans α (fun a b => ¬ stringsCompare (f b) (f a) < 0) :=
    ⟨fun a b c => by rw [hiff, hiff, hiff]; exact byteLE_trans⟩
  have h := List.sorted_insertionSort (fun a b => ¬ stringsCompare (f b) (f a) < 0) l
  exact List.Pairwise.imp (fun {a b} hab => (hiff a b).mp hab) h

theorem filter_insertStable (f : α → GoString) (k : GoString) (x : α) (l : List α) :
    (insertStable (fun a b => stringsCompare (f a) (f b)) x l).filter (fun s => f s = k) =
      (x :: l).filter (fun s => f s = k) := by
  induction l with
  | nil => rfl
  | cons y ys ih =>
    simp only [insertStable]
    split_ifs with h
    · have hne : f y ≠ f x := by
        intro e; rw [e, stringsCompare_self] at h; omega
      rw [List.filter_cons, ih]
      by_cases hx : f x = k
      · have hy : ¬ f y = k := fun e => hne (e.trans hx.symm)
        simp [List.filter_cons, hx, hy]
      · simp [List.filter_cons, hx]
    · rfl

/-- Stability: the elements with a given key come out in their input order. -/
theorem filter_sortStableFunc (f : α → GoString) (k : GoString) (l : List α) :
    (sortStableFunc (fun a b => stringsCompare (f a) (f b)) l).filter (fun s => f s = k) =
      l.filter (fun s => f s = k) := by
  induction l with
  | nil => rfl
  | cons x xs ih =>
    simp only [sortStableFunc]
    rw [filter_insertStable, List.filter_cons, ih, List.filter_cons]

end Sorting

/-- A pair is a sublist exactly when its members stand at two positions, the
first before the second. -/
theorem pair_sublist_iff {α : Type} (a b : α) (l : List α) :
    List.Sublist [a, b] l ↔ ∃ i j : Nat, i < j ∧ l[i]? = some a ∧ l[j]? = some b := by
  induction l with
  | nil =>
    constructor
    · intro h; cases h
    · rintro ⟨i, j, -, h, -⟩; simp at h
  | cons x xs ih =>
    constructor
    · intro h
      cases h with
      | cons _ h =>
        obtain ⟨i, j, hij, hi, hj⟩ := ih.mp h
        exact ⟨i + 1, j + 1, by omega, by simpa using hi, by simpa using hj⟩
      | cons₂ _ h =>
        have hb : b ∈ xs := by simpa using h.subset
        obtain ⟨j, hj⟩ := List.mem_iff_getElem?.mp hb
        exact ⟨0, j + 1, by omega, by simp, by simpa using hj⟩
    · rintro ⟨i, j, hij, hi, hj⟩
      cases j with
      | zero => omega
      | succ j =>
        rw [List.getElem?_cons_succ] at hj
        cases i with
        | zero =>
          simp only [List.getElem?_cons_zero, Option.some.injEq] at hi
          subst hi
          have hb : b ∈ xs := List.mem_iff_getElem?.mpr ⟨j, hj⟩
          exact List.Sublist.cons₂ _ (List.singleton_sublist.mpr hb)
        | succ i =>
          rw [List.getElem?_cons_succ] at hi
          exact List.Sublist.cons _ (ih.mpr ⟨i, j, by omega, hi, hj⟩)

/-- Two lists that ascend by key and in which, for every key, the elements with
that key are the same in the same order, are equal. -/
theorem eq_of_sorted_of_filter_eq {α : Type} (f : α → GoString) :
    ∀ (l₁ l₂ : List α), List.Sorted (fun a b => byteLE (f a) (f b)) l₁ →
      List.Sorted (fun a b => byteLE (f a) (f b)) l₂ →
      (∀ k, l₁.filter (fun s => f s = k) = l₂.filter (fun s => f s = k)) → l₁ = l₂ := by
  intro l₁
  induction l₁ with
  | nil =>
    intro l₂ _ _ h
    cases l₂ with
    | nil => rfl
    | cons b t =>
      have := h (f b)
      simp [List.filter_cons] at this
  | cons a t₁ ih =>
    intro l₂ h₁ h₂ h
    cases l₂ with
    | nil =>
      have := h (f a)
      simp [List.filter_cons] at this
    | cons b t₂ =>
      have ha : a ∈ b :: t₂ := by
        have : a ∈ (a :: t₁).filter (fun s => f s = f a) := by simp
        rw [h (f a)] at this
        exact (List.mem_filter.mp this).1
      have hb : b ∈ a :: t₁ := by
        have : b ∈ (b :: t₂).filter (fun s => f s = f b) := by simp
        rw [← h (f b)] at this
        exact (List.mem_filter.mp this).1
      have hab : byteLE (f a) (f b) := by
        rcases List.mem_cons.mp hb with e | hm
        · rw [e]; exact byteLE_refl _
        · exact List.rel_of_sorted_cons h₁ b hm
      have hba : byteLE (f b) (f a) := by
        rcases List.mem_cons.mp ha with e | hm
        · rw [e]; exact byteLE_refl _
        · exact List.rel_of_sorted_cons h₂ a hm
      have hk : f a = f b := byteLE_antisymm hab hba
      have hhead := h (f a)
      simp only [List.filter_cons, hk, decide_True, if_true, List.cons.injEq] at hhead
      obtain ⟨rfl, htail⟩ := hhead
      have : t₁ = t₂ := by
        refine ih t₂ h₁.of_cons h₂.of_cons ?_
        intro k
        by_cases e : f a = k
        · rw [← e, hk]; exact htail
        · have := h k
          simpa [List.filter_cons, e] using this
      rw [this]

/-- The contract of `slices.SortStableFunc` determines its result: a list that
ascends by key and keeps, for every key, the elements with that key in their
input order is the list `sortStableFunc` returns. -/
theorem sortStableFunc_unique {α : Type} (f : α → GoString) (l l' : List α)
    (hs : List.Sorted (fun a b => byteLE (f a) (f b)) l')
    (hst : ∀ k, l'.filter (fun s => f s = k) = l.filter (fun s => f s = k)) :
    l' = sortStableFunc (fun a b => stringsCompare (f a) (f b)) l :=
  eq_of_sorted_of_filter_eq f l' _ hs (sortStableFunc_sorted f l)
    (fun k => by rw [hst k, filter_sortStableFunc f k l])

/-! ## Normalization -/

theorem sorted_adjacent {α : Type} {r : α → α → Prop} {l : List α} (h : List.Sorted r l) :
    ∀ i a b, l[i]? = some a → l[i + 1]? = some b → r a b := by
  intro i a b ha hb
  rw [List.getElem?_eq_some] at ha hb
  obtain ⟨hi, rfl⟩ := ha
  obtain ⟨hj, rfl⟩ := hb
  exact (List.pairwise_iff_getElem.mp h) i (i + 1) hi hj (Nat.lt_succ_self i)

theorem slicesSort_sorted (x : List GoString) : List.Sorted byteLE (slicesSort x) :=
  sortStableFunc_sorted (fun s => s) x

theorem slicesSort_perm (x : List GoString) : (slicesSort x).Perm x :=
  sortStableFunc_perm _ x

/-- The contract of `slices.Sort` determines its result on strings: an
ascending permutation of the input is the list `slicesSort` returns. -/
theorem slicesSort_unique (x x' : List GoString) (hp : x'.Perm x)
    (hs : List.Sorted byteLE x') : x' = slicesSort x := by
  haveI : IsAntisymm GoString byteLE := ⟨fun _ _ => byteLE_antisymm⟩
  exact List.eq_of_perm_of_sorted (hp.trans (slicesSort_perm x).symm) hs (slicesSort_sorted x)

theorem normalize_sorted_ids (svcs : List hlServicesService) :
    List.Sorted (fun a b => byteLE a.ID b.ID) (normalize svcs) := by
  unfold normalize
  rw [List.Sorted, List.pairwise_map]
  exact sortStableFunc_sorted (fun s => s.ID) svcs

/-- C3. For every decoded model that normalization accepts (every slice of
services without nil pointer), the normalized service list ascends by id in the
byte-wise order, `services[i].id <= services[i+1].id` for every valid `i` (and
for every pair of positions), and the rule list of every service ascends in the
same order. -/
theorem normalize_sorted (svcs : List hlServicesService) :
    (∀ i a b, (normalize svcs)[i]? = some a → (normalize svcs)[i + 1]? = some b →
      byteLE a.ID b.ID) ∧
    List.Sorted (fun a b => byteLE a.ID b.ID) (normalize svcs) ∧
    ∀ s ∈ normalize svcs,
      (∀ i a b, s.Rules[i]? = some a → s.Rules[i + 1]? = some b → byteLE a b) ∧
      List.Sorted byteLE s.Rules := by
  refine ⟨sorted_adjacent (normalize_sorted_ids svcs), normalize_sorted_ids svcs, ?_⟩
  intro s hs
  unfold normalize at hs
  rw [List.mem_map] at hs
  obtain ⟨s', -, rfl⟩ := hs
  exact ⟨sorted_adjacent (slicesSort_sorted _), slicesSort_sorted _⟩

/-- C8. For every decoded model, normalization keeps the input order among the
services that have the same id: when two services with equal ids stand at the
input positions `i < j`, the first (with its rules sorted) stands before the
second in the normalized list; and for every id, the services with that id come
out in exactly their input order. -/
theorem normalize_stable (svcs : List hlServicesService) :
    (∀ (i j : Nat) (a b : hlServicesService), i < j → svcs[i]? = some a → svcs[j]? = some b →
      a.ID = b.ID →
      ∃ i' j' : Nat, i' < j' ∧ (normalize svcs)[i']? = some (sortRules a) ∧
        (normalize svcs)[j']? = some (sortRules b)) ∧
    (∀ k, (normalize svcs).filter (fun s => s.ID = k) =
      (svcs.filter (fun s => s.ID = k)).map sortRules) := by
  have h1 : ∀ k, (normalize svcs).filter (fun s => s.ID = k) =
      (svcs.filter (fun s => s.ID = k)).map sortRules := by
    intro k
    unfold normalize
    rw [List.filter_map]
    have : ((fun s : hlServicesService => decide (s.ID = k)) ∘ sortRules) =
        (fun s => decide (s.ID = k)) := rfl
    rw [this, filter_sortStableFunc (fun s => s.ID) k svcs]
  refine ⟨?_, h1⟩
  intro i j a b hij hi hj hab
  have hsub : List.Sublist [a, b] svcs := (pair_sublist_iff a b svcs).mpr ⟨i, j, hij, hi, hj⟩
  have hf := hsub.filter (fun s => decide (s.ID = a.ID))
  have e : List.filter (fun s => decide (s.ID = a.ID)) [a, b] = [a, b] := by
    simp [List.filter_cons, hab]
  rw [e] at hf
  have hm := hf.map sortRules
  rw [← h1 a.ID] at hm
  exact (pair_sublist_iff _ _ _).mp (hm.trans (List.filter_sublist _))

/-- C9. Normalization only reorders: the normalized list has the length of the
input and is, element for element, a rearrangement of it in which every service
keeps its id, display name and icon and has a permutation of its rules. Nothing
is dropped, added or merged, also when ids collide. -/
theorem normalize_only_reorders (svcs : List hlServicesService) :
    (normalize svcs).length = svcs.length ∧
    ∃ l, l.Perm svcs ∧
      List.Forall₂ (fun n s => n.ID = s.ID ∧ n.Name = s.Name ∧ n.IconSVG = s.IconSVG ∧
        n.Rules.Perm s.Rules) (normalize svcs) l := by
  refine ⟨?_, sortStableFunc (fun a b => stringsCompare a.ID b.ID) svcs,
    sortStableFunc_perm _ svcs, ?_⟩
  · unfold normalize
    rw [List.length_map]
    exact (sortStableFunc_perm _ svcs).length_eq
  · unfold normalize
    rw [List.forall₂_map_left_iff]
    exact List.forall₂_same.mpr (fun s _ => ⟨rfl, rfl, rfl, slicesSort_perm s.Rules⟩)

/-! ## Execution of the template -/

theorem isnotlast_iff (idx sliceLen : Int) : isnotlast idx sliceLen = true ↔ idx ≠ sliceLen - 1 := by
  simp [isnotlast]

theorem intercalate_cons_cons (sep x y : GoString) (r : List GoString) :
    List.intercalate sep (x :: y :: r) = x ++ sep ++ List.intercalate sep (y :: r) := by
  simp [List.intercalate, List.intersperse]

/-- The outer `range` writes the record literals with the separator between
every two consecutive ones. -/
theorem execRange_eq_intercalate (tab : Nat → Bool) (l : Int) :
    ∀ (rest : List hlServicesService) (i : Int), i + rest.length = l →
      execRange tab l i rest = List.intercalate separator (rest.map (recordLiteral tab)) := by
  intro rest
  induction rest with
  | nil => intro i _; rfl
  | cons s rest ih =>
    intro i hi
    cases rest with
    | nil =>
      have : isnotlast i l = false := by
        simp only [isnotlast, bne_eq_false_iff_eq, List.length_singleton] at hi ⊢
        push_cast at hi; omega
      simp [execRange, this, List.intercalate]
    | cons s' rest' =>
      have : isnotlast i l = true := by
        rw [isnotlast_iff]
        simp only [List.length_cons] at hi
        push_cast at hi; omega
      have hi' : i + 1 + ((s' :: rest').length : Int) = l := by
        simp only [List.length_cons] at hi ⊢
        push_cast at hi ⊢; omega
      rw [execRange, this, if_pos rfl, ih (i + 1) hi', List.map_cons, List.map_cons,
        List.map_cons, intercalate_cons_cons]

theorem execute_eq (tab : Nat → Bool) (svcs : List hlServicesService) :
    execute tab svcs =
      tmplHeader ++ List.intercalate separator (svcs.map (recordLiteral tab)) ++ tmplFooter := by
  unfold execute
  rw [execRange_eq_intercalate tab _ svcs 0 (by simp)]

/-- C5. For every model of `n` services the collection initializer holds the `n`
record literals of the services, in the order of the service list, with the
separator `, ` between every two consecutive literals and none before the first
or after the last; `isnotlast idx len` holds exactly when `idx` is not `len-1`;
for no service the initializer is `[]blockedService{}`; and for the scenario of
the specification the records of `a` and `b` come out in that order with one
separator between them. -/
theorem execute_separators (tab : Nat → Bool) (svcs : List hlServicesService) :
    execute tab svcs =
        markerLine ++ packageClause ++ typeDecl ++ varDecl ++
          (initOpen ++ List.intercalate separator (svcs.map (recordLiteral tab)) ++
            ascii "\x7d") ++ ascii "\n" ∧
    (svcs.map (recordLiteral tab)).length = svcs.length ∧
    (∀ idx len : Int, isnotlast idx len = true ↔ idx ≠ len - 1) ∧
    execute tab [] =
        markerLine ++ packageClause ++ typeDecl ++ varDecl ++ ascii "[]blockedService\x7b\x7d" ++
          ascii "\n" ∧
    (decode (some scenarioDoc)).toOption.bind (fun m => derefAll m.BlockedServices) =
        some [⟨ascii "b", ascii "B", ascii "<svg/>", [ascii "z", ascii "a"]⟩,
          ⟨ascii "a", ascii "A", [], []⟩] ∧
    normalize [⟨ascii "b", ascii "B", ascii "<svg/>", [ascii "z", ascii "a"]⟩,
          ⟨ascii "a", ascii "A", [], []⟩] =
        [⟨ascii "a", ascii "A", [], []⟩,
          ⟨ascii "b", ascii "B", ascii "<svg/>", [ascii "a", ascii "z"]⟩] ∧
    execute tab (normalize [⟨ascii "b", ascii "B", ascii "<svg/>", [ascii "z", ascii "a"]⟩,
          ⟨ascii "a", ascii "A", [], []⟩]) =
        tmplHeader ++
          ascii "\x7b\n\tID:      \"a\",\n\tName:    \"A\",\n\tIconSVG: []byte(\"\"),\n\tRules: []string\x7b\n\t\x7d,\n\x7d" ++
          ascii ", " ++
          ascii "\x7b\n\tID:      \"b\",\n\tName:    \"B\",\n\tIconSVG: []byte(\"<svg/>\"),\n\tRules: []string\x7b\n\t\t\"a\",\n\t\t\"z\",\n\t\x7d,\n\x7d" ++
          ascii "\x7d\n" := by
  refine ⟨?_, by simp, isnotlast_iff, rfl, rfl, rfl, ?_⟩
  · rw [execute_eq]
    simp only [tmplHeader, tmplFooter, List.append_assoc]
    rfl
  · rfl

/-! ## The generated-file marker and the status check -/

/-- C10. For every model, the empty one included, the emitted file begins with
the comment line `// Code generated by go run ./scripts/blocked-services/main.go;
DO NOT EDIT.`: one line, a `//` comment, which names the generating command and
says not to edit; it stands in front of the package clause, which stands in
front of the collection initializer and so of every service record. -/
theorem execute_marker_first (tab : Nat → Bool) (svcs : List hlServicesService) :
    execute tab svcs =
        ascii "// Code generated by go run ./scripts/blocked-services/main.go; DO NOT EDIT.\n" ++
          (ascii "\npackage filtering\n" ++
            (ascii "\n" ++ typeDecl ++ varDecl ++
              (initOpen ++ List.intercalate separator (svcs.map (recordLiteral tab)) ++
                tmplFooter))) ∧
    execute tab [] =
        ascii "// Code generated by go run ./scripts/blocked-services/main.go; DO NOT EDIT.\n" ++
          (ascii "\npackage filtering\n" ++
            (ascii "\n" ++ typeDecl ++ varDecl ++ (initOpen ++ tmplFooter))) ∧
    List.IsPrefix markerLine (execute tab svcs) ∧
    markerLine.take 2 = ascii "//" ∧
    markerLine.getLast? = some 0x0A ∧
    (0x0A : Byte) ∉ markerLine.dropLast := by
  refine ⟨?_, rfl, ?_, by decide, by decide, by decide⟩
  · rw [execute_eq]
    simp only [tmplHeader, List.append_assoc]
    rfl
  · rw [execute_eq]
    simp only [tmplHeader, List.append_assoc]
    exact List.prefix_append _ _

/-- C7. For every status code other than 200 the run ends with the error that
carries the expected code 200 and the observed code, and the destination file
is not opened and keeps its content; the status check lets the run pass exactly
when the code is 200, and the run ends with that error exactly when it is
not. -/
theorem status_gate (tab : Nat → Bool) (env : Env) (resp : Response)
    (hurl : env.urlValid = true) (hresp : env.response = some resp) :
    (resp.StatusCode ≠ 200 →
      run tab env = ⟨some (.response 200 resp.StatusCode), false, env.file⟩) ∧
    (checkStatus resp = .ok () ↔ resp.StatusCode = 200) ∧
    ((∃ e g, (run tab env).error = some (.response e g)) ↔ resp.StatusCode ≠ 200) := by
  have hcheck : checkStatus resp = .ok () ↔ resp.StatusCode = 200 := by
    unfold checkStatus StatusOK
    by_cases h : resp.StatusCode = 200
    · simp [h]
    · simp [h]
  have hfail : resp.StatusCode ≠ 200 →
      run tab env = ⟨some (.response 200 resp.StatusCode), false, env.file⟩ := by
    intro h
    simp [run, hurl, hresp, checkStatus, StatusOK, h]
  refine ⟨hfail, hcheck, ?_⟩
  constructor
  · rintro ⟨e, g, h⟩
    intro h200
    have hc := hcheck.mpr h200
    simp only [run, hurl, hresp, hc] at h
    revert h
    simp only [Bool.true_eq_false, if_false]
    split
    · simp
    · split
      · simp
      · split <;> simp
  · intro h
    exact ⟨200, resp.StatusCode, by rw [hfail h]⟩

/-- Witness of C7: a response with status 404. -/
theorem status_gate_witness :
    run (fun _ => false) ⟨true, some ⟨404, some scenarioDoc⟩, true, some (ascii "old")⟩ =
      ⟨some (.response 200 404), false, some (ascii "old")⟩ :=
  (status_gate (fun _ => false) ⟨true, some ⟨404, some scenarioDoc⟩, true, some (ascii "old")⟩
    ⟨404, some scenarioDoc⟩ rfl rfl).1 (by decide)

/-! ## Decoding -/

theorem decodeServiceMember_id (s r : ServiceSlot) (m : GoString × JValue)
    (hk : keyIs "id" m.1 = false) (h : decodeServiceMember s m = .ok r) :
    r.svc.ID = s.svc.ID := by
  unfold decodeServiceMember at h
  rw [hk] at h
  simp only [Bool.false_eq_true, if_false] at h
  split_ifs at h
  · cases hd : decodeString s.svc.Name m.2 with
    | error e => rw [hd] at h; cases h
    | ok v => rw [hd] at h; cases h; rfl
  · cases hd : decodeString s.svc.IconSVG m.2 with
    | error e => rw [hd] at h; cases h
    | ok v => rw [hd] at h; cases h; rfl
  · cases hd : decodeSlice decodeString [] ⟨s.svc.Rules, s.spareRules⟩ m.2 with
    | error e => rw [hd] at h; cases h
    | ok v => rw [hd] at h; cases h; rfl
  · cases h; rfl

/-- Members none of which has a key matching `id` leave the field `ID` as it
is. -/
theorem foldlM_decodeServiceMember_id (members : List (GoString × JValue)) :
    ∀ (s r : ServiceSlot), (∀ kv ∈ members, keyIs "id" kv.1 = false) →
      members.foldlM decodeServiceMember s = .ok r → r.svc.ID = s.svc.ID := by
  induction members with
  | nil =>
    intro s r _ h
    cases h; rfl
  | cons m ms ih =>
    intro s r hk h
    rw [List.foldlM_cons] at h
    cases hd : decodeServiceMember s m with
    | error e => rw [hd] at h; cases h
    | ok s' =>
      rw [hd] at h
      have h1 := decodeServiceMember_id s s' m (hk m (List.mem_cons_self _ _)) hd
      have h2 := ih s' r (fun kv hkv => hk kv (List.mem_cons_of_mem _ hkv)) h
      rw [h2, h1]

/-- Members none of which has a key matching `blocked_services` leave the slice
as it is. -/
theorem foldlM_decodeTopMember_none (members : List (GoString × JValue)) :
    ∀ (st : Slice (Option ServiceSlot)),
      (∀ kv ∈ members, keyIs "blocked_services" kv.1 = false) →
      members.foldlM decodeTopMember st = .ok st := by
  induction members with
  | nil => intro st _; rfl
  | cons kv ms ih =>
    intro st hk
    rw [List.foldlM_cons]
    have : decodeTopMember st kv = .ok st := by
      unfold decodeTopMember
      rw [hk kv (List.mem_cons_self _ _)]
      rfl
    rw [this]
    exact ih st (fun kv hkv => hk kv (List.mem_cons_of_mem _ hkv))

/-- Into an empty backing array every element of a JSON array is decoded from
the zero value, and lands at its own index. -/
theorem decodeElems_fresh {T : Type} (dec : T → JValue → Except DecodeError T) (zero : T) :
    ∀ (items : List JValue) (vs : List T), decodeElems dec zero [] items = .ok vs →
      ∀ (i : Nat) (x : JValue), items[i]? = some x →
        ∃ v, vs[i]? = some v ∧ dec zero x = .ok v := by
  intro items
  induction items with
  | nil => intro vs _ i x hx; simp at hx
  | cons j js ih =>
    intro vs h i x hx
    simp only [decodeElems, List.headD_nil, List.tail_nil] at h
    cases hd : dec zero j with
    | error e => rw [hd] at h; cases h
    | ok v =>
      rw [hd] at h
      cases hr : decodeElems dec zero [] js with
      | error e => rw [hr] at h; cases h
      | ok vs' =>
        rw [hr] at h
        cases h
        cases i with
        | zero =>
          simp only [List.getElem?_cons_zero, Option.some.injEq] at hx
          subst hx
          exact ⟨v, by simp, hd⟩
        | succ i =>
          rw [List.getElem?_cons_succ] at hx
          obtain ⟨v', hv', hdv⟩ := ih vs' hr i x hx
          exact ⟨v', by simpa using hv', hdv⟩

/-- In a document whose top-level object has one member that matches
`blocked_services`, an array, a service object without a member matching `id`
is decoded to a record with the empty id, at its own position. -/
theorem decode_missing_id (pre post : List (GoString × JValue)) (key : GoString)
    (items : List JValue) (m : hlServices)
    (hpre : ∀ kv ∈ pre, keyIs "blocked_services" kv.1 = false)
    (hpost : ∀ kv ∈ post, keyIs "blocked_services" kv.1 = false)
    (hkey : keyIs "blocked_services" key = true)
    (h : decode (some (.obj (pre ++ (key, .arr items) :: post))) = .ok m)
    (i : Nat) (members : List (GoString × JValue))
    (hi : items[i]? = some (.obj members))
    (hid : ∀ kv ∈ members, keyIs "id" kv.1 = false) :
    ∃ s, m.BlockedServices[i]? = some (some s) ∧ s.ID = [] := by
  simp only [decode] at h
  rw [List.foldlM_append, foldlM_decodeTopMember_none pre _ hpre] at h
  simp only [Except.bind, bind, List.foldlM_cons] at h
  have hm : decodeTopMember ⟨[], []⟩ (key, .arr items) =
      decodeSlice decodeServicePtr none ⟨[], []⟩ (.arr items) := by
    unfold decodeTopMember
    rw [hkey]; rfl
  rw [hm] at h
  cases items with
  | nil => simp at hi
  | cons j js =>
    simp only [decodeSlice, List.append_nil] at h
    cases hr : decodeElems decodeServicePtr none [] (j :: js) with
    | error e => rw [hr] at h; cases h
    | ok vs =>
      rw [hr] at h
      simp only [List.drop_nil] at h
      rw [foldlM_decodeTopMember_none post _ hpost] at h
      cases h
      obtain ⟨v, hv, hdv⟩ := decodeElems_fresh decodeServicePtr none _ vs hr i _ hi
      simp only [decodeServicePtr, Option.getD_none] at hdv
      cases hf : members.foldlM decodeServiceMember ⟨⟨[], [], [], []⟩, []⟩ with
      | error e => rw [hf] at hdv; cases hdv
      | ok slot =>
        rw [hf] at hdv
        cases hdv
        refine ⟨slot.svc, ?_, foldlM_decodeServiceMember_id members _ slot hid hf⟩
        simp [toModel, hv]

/-- The key `bloc<U+212A>ed_services`, written with the Kelvin sign, selects the
field `BlockedServices`, and the key `rule<U+017F>`, written with the long s,
the field `Rules`. -/
theorem decode_folded_keys :
    decode (some (.obj [(ascii "bloc" ++ [0xE2, 0x84, 0xAA] ++ ascii "ed_services",
        .arr [.obj [(ascii "ID", .str (ascii "a")),
          (ascii "rule" ++ [0xC5, 0xBF], .arr [.str (ascii "r")])]])])) =
      .ok ⟨[some ⟨ascii "a", [], [], [ascii "r"]⟩]⟩ := rfl

/-- A repeated key is decoded over what the first occurrence left: the service
object of the second array, which has no `id`, keeps the id `a`; and an element
behind the length of a slice is met again when the slice grows back. -/
theorem decode_repeated_keys :
    decode (some (.obj [
        (ascii "blocked_services", .arr [.obj [(ascii "id", .str (ascii "a"))]]),
        (ascii "blocked_services", .arr [.obj [(ascii "name", .str (ascii "n"))]])])) =
      .ok ⟨[some ⟨ascii "a", ascii "n", [], []⟩]⟩ ∧
    decode (some (.obj [(ascii "blocked_services", .arr [.obj [
        (ascii "rules", .arr [.str (ascii "x"), .str (ascii "y")]),
        (ascii "rules", .arr [.null]),
        (ascii "rules", .arr [.null, .null])]])])) =
      .ok ⟨[some ⟨[], [], [], [ascii "x", ascii "y"]⟩]⟩ := ⟨rfl, rfl⟩

/-- Counterexample to C6 as stated: the document `{}` has no field
`blocked_services` and the document `{"blocked_services":[{"name":"x"}]}` has a
service without `id`; both decode without error, the run goes on, opens the
destination file and writes it, in the second case with a record whose id is
empty. -/
theorem decode_missing_fields_counterexample :
    decode (some (.obj [])) = .ok ⟨[]⟩ ∧
    decode (some (.obj [(ascii "blocked_services",
        .arr [.obj [(ascii "name", .str (ascii "x"))]])])) =
      .ok ⟨[some ⟨[], ascii "x", [], []⟩]⟩ ∧
    (∀ tab : Nat → Bool,
      run tab ⟨true, some ⟨200, some (.obj [])⟩, true, some (ascii "old")⟩ =
        ⟨none, true, some (execute tab [])⟩) ∧
    (∀ tab : Nat → Bool,
      run tab ⟨true, some ⟨200, some (.obj [(ascii "blocked_services",
          .arr [.obj [(ascii "name", .str (ascii "x"))]])])⟩, true, some (ascii "old")⟩ =
        ⟨none, true, some (execute tab [⟨[], ascii "x", [], []⟩])⟩) :=
  ⟨rfl, rfl, fun _ => rfl, fun _ => rfl⟩

/-- C6, amended. When decoding fails, the run ends with the decode error and
the destination file is not opened and keeps its content; decoding fails when
the body does not start with a JSON value and when that value is neither an
object nor `null`. A missing field is no decode error: an object without a
member that matches `blocked_services` decodes to a model without services; in a
document with one member `blocked_services`, a service object without a member
that matches `id` decodes to a record whose id is empty; and every model that
decodes without a nil pointer goes on to normalization and emission, no field
being checked. -/
theorem decode_error_aborts (tab : Nat → Bool) (env : Env) (resp : Response)
    (e : DecodeError) (hurl : env.urlValid = true) (hresp : env.response = some resp)
    (hstatus : resp.StatusCode = 200) (hdec : decode resp.Body = .error e) :
    run tab env = ⟨some (.decode e), false, env.file⟩ ∧
    decode none = .error .malformed ∧
    (∀ b, decode (some (.bool b)) = .error .typeMismatch) ∧
    (∀ t, decode (some (.number t)) = .error .typeMismatch) ∧
    (∀ s, decode (some (.str s)) = .error .typeMismatch) ∧
    (∀ items, decode (some (.arr items)) = .error .typeMismatch) ∧
    (∀ members : List (GoString × JValue),
      (∀ kv ∈ members, keyIs "blocked_services" kv.1 = false) →
        decode (some (.obj members)) = .ok ⟨[]⟩) ∧
    (∀ (pre post : List (GoString × JValue)) (key : GoString) (items : List JValue)
        (m : hlServices) (i : Nat) (members : List (GoString × JValue)),
      (∀ kv ∈ pre, keyIs "blocked_services" kv.1 = false) →
      (∀ kv ∈ post, keyIs "blocked_services" kv.1 = false) →
      keyIs "blocked_services" key = true →
      decode (some (.obj (pre ++ (key, .arr items) :: post))) = .ok m →
      items[i]? = some (.obj members) →
      (∀ kv ∈ members, keyIs "id" kv.1 = false) →
        ∃ s, m.BlockedServices[i]? = some (some s) ∧ s.ID = []) ∧
    (∀ (env' : Env) (resp' : Response) (m : hlServices) (svcs : List hlServicesService),
      env'.urlValid = true → env'.response = some resp' → resp'.StatusCode = 200 →
      decode resp'.Body = .ok m → derefAll m.BlockedServices = some svcs →
      env'.canOpen = true →
        run tab env' = ⟨none, true, some (execute tab (normalize svcs))⟩) := by
  refine ⟨?_, rfl, fun _ => rfl, fun _ => rfl, fun _ => rfl, fun _ => rfl, ?_, ?_, ?_⟩
  · have hc : checkStatus resp = .ok () := by simp [checkStatus, StatusOK, hstatus]
    simp [run, hurl, hresp, hc, hdec]
  · intro members hk
    simp only [decode]
    rw [foldlM_decodeTopMember_none members _ hk]
    rfl
  · intro pre post key items m i members hpre hpost hkey h hi hid
    exact decode_missing_id pre post key items m hpre hpost hkey h i members hi hid
  · intro env' resp' m svcs h1 h2 h3 h4 h5 h6
    have hc : checkStatus resp' = .ok () := by simp [checkStatus, StatusOK, h3]
    simp [run, h1, h2, hc, h4, h5, h6]

/-- Witness of the amended C6: a body that does not start with a JSON value
aborts the run; and the service object `{"name":"x"}`, alone in the one array
`blocked_services` of a document that decodes, gives a record whose id is
empty. -/
theorem decode_error_aborts_witness :
    run (fun _ => false) ⟨true, some ⟨200, none⟩, true, some (ascii "old")⟩ =
      ⟨some (.decode .malformed), false, some (ascii "old")⟩ ∧
    ∃ s, (⟨[some ⟨[], ascii "x", [], []⟩]⟩ : hlServices).BlockedServices[0]? = some (some s) ∧
      s.ID = [] :=
  ⟨(decode_error_aborts (fun _ => false) ⟨true, some ⟨200, none⟩, true, some (ascii "old")⟩
      ⟨200, none⟩ .malformed rfl rfl rfl rfl).1,
    (decode_error_aborts (fun _ => false) ⟨true, some ⟨200, none⟩, true, some (ascii "old")⟩
      ⟨200, none⟩ .malformed rfl rfl rfl rfl).2.2.2.2.2.2.2.1 [] []
      (ascii "blocked_services") [.obj [(ascii "name", .str (ascii "x"))]]
      ⟨[some ⟨[], ascii "x", [], []⟩]⟩ 0 [(ascii "name", .str (ascii "x"))]
      (by simp) (by simp) rfl rfl rfl (by decide)⟩

/-! ## Determinism -/

theorem slicesSort_congr {x y : List GoString} (h : x.Perm y) : slicesSort x = slicesSort y := by
  haveI : IsAntisymm GoString byteLE := ⟨fun _ _ => byteLE_antisymm⟩
  exact List.eq_of_perm_of_sorted
    ((slicesSort_perm x).trans (h.trans (slicesSort_perm y).symm))
    (slicesSort_sorted x) (slicesSort_sorted y)

theorem sortRules_congr {a b : hlServicesService}
    (h : a.ID = b.ID ∧ a.Name = b.Name ∧ a.IconSVG = b.IconSVG ∧ a.Rules.Perm b.Rules) :
    sortRules a = sortRules b := by
  obtain ⟨h1, h2, h3, h4⟩ := h
  cases a; cases b
  simp only [sortRules] at *
  simp only [h1, h2, h3, slicesSort_congr h4]

theorem sameServices_map_perm {l₁ l₂ : List hlServicesService} (h : SameServices l₁ l₂) :
    (l₁.map sortRules).Perm (l₂.map sortRules) := by
  obtain ⟨l, hp, hf⟩ := h
  have key : ∀ l₁ l : List hlServicesService,
      List.Forall₂ (fun a b => a.ID = b.ID ∧ a.Name = b.Name ∧ a.IconSVG = b.IconSVG ∧
        a.Rules.Perm b.Rules) l₁ l → l₁.map sortRules = l.map sortRules := by
    intro l₁ l hf
    induction hf with
    | nil => rfl
    | cons hab _ ih => simp only [List.map_cons, sortRules_congr hab, ih]
  rw [key l₁ l hf]
  exact hp.map sortRules

theorem normalize_perm (svcs : List hlServicesService) :
    (normalize svcs).Perm (svcs.map sortRules) :=
  (sortStableFunc_perm _ svcs).map sortRules

theorem sortRules_ID (s : hlServicesService) : (sortRules s).ID = s.ID := rfl

/-- Two lists that ascend by id, hold the same elements and have no id twice
are equal. -/
theorem eq_of_sorted_ids {l₁ l₂ : List hlServicesService} (hp : l₁.Perm l₂)
    (h₁ : List.Sorted (fun a b => byteLE a.ID b.ID) l₁)
    (h₂ : List.Sorted (fun a b => byteLE a.ID b.ID) l₂)
    (hn : (l₁.map (fun s => s.ID)).Nodup) : l₁ = l₂ := by
  have hn₂ : (l₂.map (fun s => s.ID)).Nodup := (hp.map _).nodup_iff.mp hn
  have strict : ∀ l : List hlServicesService, List.Sorted (fun a b => byteLE a.ID b.ID) l →
      (l.map (fun s => s.ID)).Nodup → List.Sorted (fun a b => byteLT a.ID b.ID) l := by
    intro l hs hnd
    rw [List.Nodup, List.pairwise_map] at hnd
    refine (List.Pairwise.and hs hnd).imp ?_
    rintro a b ⟨hle, hne⟩
    rcases hle with e | hlt
    · exact absurd e hne
    · exact hlt
  haveI : IsAntisymm hlServicesService (fun a b => byteLT a.ID b.ID) :=
    ⟨fun _ _ h h' => absurd h' (byteLT_asymm h)⟩
  exact List.eq_of_perm_of_sorted hp (strict l₁ h₁ hn) (strict l₂ h₂ hn₂)

theorem normalize_eq_of_sameServices {l₁ l₂ : List hlServicesService}
    (hs : SameServices l₁ l₂) (hn : (l₁.map (fun s => s.ID)).Nodup) :
    normalize l₁ = normalize l₂ := by
  have hp : (normalize l₁).Perm (normalize l₂) :=
    (normalize_perm l₁).trans ((sameServices_map_perm hs).trans (normalize_perm l₂).symm)
  refine eq_of_sorted_ids hp (normalize_sorted_ids l₁) (normalize_sorted_ids l₂) ?_
  have : ((normalize l₁).map (fun s => s.ID)).Perm (l₁.map (fun s => s.ID)) := by
    have h := (normalize_perm l₁).map (fun s => s.ID)
    rw [List.map_map] at h
    exact h
  exact this.nodup_iff.mpr hn

/-- Counterexample to C4 as stated: two models hold the same two services, which
share the id `a`, in opposite orders; whatever the printable-rune tables, the
outputs differ. -/
theorem determinism_counterexample :
    SameServices
      [⟨ascii "a", ascii "X", [], []⟩, ⟨ascii "a", ascii "Y", [], []⟩]
      [⟨ascii "a", ascii "Y", [], []⟩, ⟨ascii "a", ascii "X", [], []⟩] ∧
    ∀ tab : Nat → Bool,
      execute tab (normalize [⟨ascii "a", ascii "X", [], []⟩, ⟨ascii "a", ascii "Y", [], []⟩]) ≠
      execute tab (normalize [⟨ascii "a", ascii "Y", [], []⟩, ⟨ascii "a", ascii "X", [], []⟩]) := by
  refine ⟨⟨_, List.Perm.swap _ _ [], ?_⟩, ?_⟩
  · exact List.Forall₂.cons ⟨rfl, rfl, rfl, List.Perm.refl _⟩
      (List.Forall₂.cons ⟨rfl, rfl, rfl, List.Perm.refl _⟩ List.Forall₂.nil)
  · intro tab h
    have n1 : normalize [⟨ascii "a", ascii "X", [], []⟩, ⟨ascii "a", ascii "Y", [], []⟩] =
        [⟨ascii "a", ascii "X", [], []⟩, ⟨ascii "a", ascii "Y", [], []⟩] := by decide
    have n2 : normalize [⟨ascii "a", ascii "Y", [], []⟩, ⟨ascii "a", ascii "X", [], []⟩] =
        [⟨ascii "a", ascii "Y", [], []⟩, ⟨ascii "a", ascii "X", [], []⟩] := by decide
    rw [n1, n2, execute_eq, execute_eq, List.append_assoc, List.append_assoc] at h
    have h' := List.append_cancel_right (List.append_cancel_left h)
    have e := congrArg (fun o => o.getD 28 0) h'
    exact absurd e (by
      show ¬ ((88 : Byte) = 89)
      decide)

/-- C4, amended. For any two decoded models that hold the same services, in any
order and each service's rules in any order, and in which no id occurs twice,
normalization followed by emission produces the same bytes. -/
theorem determinism (tab : Nat → Bool) (l₁ l₂ : List hlServicesService)
    (hs : SameServices l₁ l₂) (hn : (l₁.map (fun s => s.ID)).Nodup) :
    execute tab (normalize l₁) = execute tab (normalize l₂) := by
  rw [normalize_eq_of_sameServices hs hn]

/-- Witness of the amended C4: the two services of the scenario, given in both
orders and with the rules of `b` in both orders. -/
theorem determinism_witness :
    execute (fun _ => false) (normalize
        [⟨ascii "b", ascii "B", ascii "<svg/>", [ascii "z", ascii "a"]⟩,
          ⟨ascii "a", ascii "A", [], []⟩]) =
      execute (fun _ => false) (normalize
        [⟨ascii "a", ascii "A", [], []⟩,
          ⟨ascii "b", ascii "B", ascii "<svg/>", [ascii "a", ascii "z"]⟩]) :=
  determinism (fun _ => false) _ _
    ⟨[⟨ascii "b", ascii "B", ascii "<svg/>", [ascii "a", ascii "z"]⟩,
        ⟨ascii "a", ascii "A", [], []⟩],
      List.Perm.swap _ _ [],
      List.Forall₂.cons ⟨rfl, rfl, rfl, List.Perm.swap _ _ []⟩
        (List.Forall₂.cons ⟨rfl, rfl, rfl, List.Perm.refl _⟩ List.Forall₂.nil)⟩
    (by decide)

end BlockedServices
